import Mathlib

/-!
# xkcd search service: search paths, index, update gate and gateway handlers

A shallow embedding of `search/core/service.go` (`Service.Search`,
`Service.IndexSearch`), `search/adapters/initiator/initiator.go`
(`Initiator.GetIndexedComics`, `IndexComics`, `ClearIndex`) and the parts of
`search/adapters/db/storage.go` they talk to; of the middlewares `Auth` and
`Concurrency` and the search and update handlers of the API gateway
(`api/adapters/rest`); of the exclusive-run gate of the update service; of the
token issuer and verifier (`api/adapters/aaa/auth.go`); of the bus listener and
publisher (`search/adapters/nats`, `update/adapters/nats`); of the words server
(`words/main.go`); of `StringArray` (`search/adapters/db/storage.go`); and of the
loop of `Initiator.Start`.

Conventions of the embedding.

* A Go `(value, error)` result of a collaborator is an `Except Err value`: every
  caller in the source tests `err != nil` before it looks at the value.
* The result of the two search functions themselves is an `Outcome`: either a
  run-time panic, or the returned pair `(comics, err)`, where `none` in the first
  component is the `nil` slice and `none` in the second the `nil` error.
* A Go map is a list of key/value pairs with pairwise distinct keys.  The order in
  which `range` walks a map and the permutation an unstable sort produces are not
  fixed by the language; they are the two fields of a `GoRuntime`, one value of
  which stands for the choices made during one call.
* Go `int` is `Int` for ids and limits (which may be negative) and `Nat` for
  counters and lengths; no counter here can reach `2^63`.
* `make([]int, 0, limit)` panics where the runtime's `makeslice` does: for a negative
  capacity and for one above `2^45` elements (`maxAlloc` of a 64-bit platform).  An
  allocation that passes this check is taken to succeed.
* Strings are lists of Unicode characters; the library functions used on them
  (`strconv.Atoi`, `strconv.Itoa`, `strings.HasPrefix`, `strings.TrimSpace`) are
  written out on character lists.
* A handler is modelled by what it does to its response writer (`Response`) and
  by the calls it makes to what it wraps.  Requests served in parallel by the
  `Concurrency` middleware are a transition system over its atomic channel
  operations.
-/

namespace XkcdSearch

/-! ## Data model -/

/-- Go `error` values. `msg text` is an error made where the failure happens
(`errors.New(text)`, `fmt.Errorf` without `%w`, an error of a library): a new value, which
is no package-level variable. `wrap pre inner` is `fmt.Errorf("<pre>: %w", inner)`, also a
new value. `sentinel name text` is the package-level variable `name`, declared as
`var name = errors.New(text)`: one value for the whole run of the program. -/
inductive Err where
  | msg (text : String)
  | wrap (pre : String) (inner : Err)
  | sentinel (name : String) (text : String)
deriving DecidableEq, Repr

/-- The struct `core.Comics` of `search/core/models.go`. -/
structure Comics where
  ID : Int
  URL : String
  Words : List String
deriving DecidableEq, Repr

/-- The interface `core.Storager` of `search/core/ports.go`. -/
structure Storager where
  Search : String → Except Err (List Int)
  Get : Int → Except Err Comics
  GetAllComics : Except Err (List Comics)
  GetComicsByIDs : List Int → Except Err (List Comics)

/-- The interface `core.Words` of `search/core/ports.go`. -/
structure Words where
  Norm : String → Except Err (List String)

/-- What a call of `Search`, `IndexSearch` or `GetIndexedComics` does: it panics, or it
returns the pair `(comics, err)`; `none` is Go's `nil`. -/
inductive Outcome where
  | panic
  | ret (comics : Option (List Comics)) (err : Option Err)
deriving DecidableEq, Repr

/-! ## Go maps -/

/-- A Go map as a list of entries with distinct keys. -/
abbrev GoMap (κ ν : Type) := List (κ × ν)

/-- Map read `m[k]`, which yields the zero value `zero` for an absent key. -/
def GoMap.get {κ ν : Type} [DecidableEq κ] (m : GoMap κ ν) (k : κ) (zero : ν) : ν :=
  match m with
  | [] => zero
  | (k', v) :: rest => if k' = k then v else GoMap.get rest k zero

/-- Map write `m[k] = v`. -/
def GoMap.set {κ ν : Type} [DecidableEq κ] (m : GoMap κ ν) (k : κ) (v : ν) : GoMap κ ν :=
  match m with
  | [] => [(k, v)]
  | (k', v') :: rest => if k' = k then (k, v) :: rest else (k', v') :: GoMap.set rest k v

/-- The keys of a map, in the order of the entry list. -/
def GoMap.keys {κ ν : Type} (m : GoMap κ ν) : List κ :=
  m.map Prod.fst

/-! ## Choices left open by the Go runtime -/

/-- The choices the language leaves to the runtime during one call: the order in which a
map is walked (`range m`, `maps.Keys(m)`), and the permutation the pattern-defeating
quicksort behind `slices.SortFunc` and `sort.Slice` produces for a given `less`. -/
structure GoRuntime where
  mapOrder : {α : Type} → List α → List α
  sort : {α : Type} → (α → α → Bool) → List α → List α

/-- A strict weak ordering, the requirement `slices.SortFunc` and `sort.Slice` place on the
comparison: asymmetric and negatively transitive. -/
structure StrictWeak {α : Type} (less : α → α → Bool) : Prop where
  asymm : ∀ a b, less a b = true → less b a = false
  negTrans : ∀ a b c, less a b = false → less b c = false → less a c = false

/-- What the language guarantees about the runtime's choices: walking a map visits every
entry once; sorting permutes the slice and, for a strict weak ordering, leaves no element
before one that is less than it. -/
structure GoRuntime.Lawful (rt : GoRuntime) : Prop where
  mapOrder_perm : ∀ {α : Type} (l : List α), (rt.mapOrder l).Perm l
  sort_perm : ∀ {α : Type} (less : α → α → Bool) (l : List α), (rt.sort less l).Perm l
  sort_sorted : ∀ {α : Type} (less : α → α → Bool) (l : List α), StrictWeak less →
    (rt.sort less l).Pairwise (fun a b => less b a = false)

/-- Insertion of `a` into a slice sorted by `less`, behind the elements less than it and
before all others. -/
def insertSorted {α : Type} (less : α → α → Bool) (a : α) : List α → List α
  | [] => [a]
  | b :: rest => if less b a then b :: insertSorted less a rest else a :: b :: rest

/-- Insertion sort, the sort the Go library itself uses for slices of at most 12
elements. -/
def insertionSort {α : Type} (less : α → α → Bool) : List α → List α
  | [] => []
  | a :: rest => insertSorted less a (insertionSort less rest)

/-- One admissible runtime: maps are walked in entry order and slices are sorted by
insertion. -/
def stableRuntime : GoRuntime where
  mapOrder := fun l => l
  sort := fun less l => insertionSort less l

/-- Another admissible runtime: maps are walked in reverse entry order. -/
def reverseRuntime : GoRuntime where
  mapOrder := fun l => l.reverse
  sort := fun less l => insertionSort less l

/-- Go's `cmp.Compare` on integers. -/
def cmpCompare (x y : Int) : Int :=
  if x < y then -1 else if x > y then 1 else 0

/-- Go's `slices.SortedFunc(seq, cmp)`: collect the sequence, sort it with
`less a b := cmp(a, b) < 0`. -/
def slicesSortedFunc {α : Type} (rt : GoRuntime) (seq : List α) (cmp : α → α → Int) : List α :=
  rt.sort (fun a b => decide (cmp a b < 0)) seq

/-! ## `Service.Search` (search/core/service.go) -/

/-- The inner loop `for _, ID := range IDs { scores[ID]++ }`. -/
def countIDs (scores : GoMap Int Nat) (IDs : List Int) : GoMap Int Nat :=
  IDs.foldl (fun s ID => s.set ID (s.get ID 0 + 1)) scores

/-- The loop over the keywords: one `Store.Search` per keyword, the first error ends the
call. -/
def collectScores (db : Storager) : List String → GoMap Int Nat → Except Err (GoMap Int Nat)
  | [], scores => .ok scores
  | keyword :: rest, scores =>
    match db.Search keyword with
    | .error err => .error err
    | .ok IDs => collectScores db rest (countIDs scores IDs)

/-- The ids sorted by number of findings, descending:
`slices.SortedFunc(maps.Keys(scores), func(a, b) { return cmp.Compare(scores[b], scores[a]) })`. -/
def sortedIDs (rt : GoRuntime) (scores : GoMap Int Nat) : List Int :=
  slicesSortedFunc rt (rt.mapOrder scores.keys)
    (fun a b => cmpCompare (scores.get b 0) (scores.get a 0))

/-- The lines `if len(sorted) < limit { limit = len(sorted) }; sorted = sorted[:limit]`;
`none` is the panic of a slice expression with a negative bound. -/
def limitResults (sorted : List Int) (limit : Int) : Option (List Int) :=
  let limit := if (sorted.length : Int) < limit then (sorted.length : Int) else limit
  if limit < 0 then none else some (sorted.take limit.toNat)

/-- The loop that fetches the comics: one `Store.Get` per id, the first error ends the
call. -/
def fetchComics (db : Storager) : List Int → List Comics → Except Err (List Comics)
  | [], result => .ok result
  | ID :: rest, result =>
    match db.Get ID with
    | .error err => .error err
    | .ok comics => fetchComics db rest (result ++ [comics])

/-- The method `Service.Search`. -/
def Search (rt : GoRuntime) (words : Words) (db : Storager) (phrase : String) (limit : Int) :
    Outcome :=
  match words.Norm phrase with
  | .error err => .ret none (some err)
  | .ok keywords =>
    match collectScores db keywords [] with
    | .error err => .ret none (some err)
    | .ok scores =>
      match limitResults (sortedIDs rt scores) limit with
      | none => .panic
      | some sorted =>
        match fetchComics db sorted [] with
        | .error err => .ret none (some err)
        | .ok result => .ret (some result) none

/-! ## `Initiator.GetIndexedComics` (search/adapters/initiator/initiator.go) -/

/-- The digit loop of Go's `strconv.Atoi`: `none` on a byte that is not a decimal digit. -/
def atoiDigits : List Char → Nat → Option Nat
  | [], n => some n
  | ch :: rest, n =>
    if '0' ≤ ch ∧ ch ≤ '9' then atoiDigits rest (n * 10 + (ch.toNat - '0'.toNat)) else none

/-- Go's `strconv.Atoi` for a 64-bit `int`: an optional sign, at least one decimal digit,
and a value that fits; `none` when it returns an error. -/
def Atoi (s : String) : Option Int :=
  match s.toList with
  | [] => none
  | c :: rest =>
    let digits := if c = '-' ∨ c = '+' then rest else c :: rest
    if digits = [] then none
    else
      match atoiDigits digits 0 with
      | none => none
      | some n =>
        if c = '-' then (if n ≤ 2 ^ 63 then some (-(n : Int)) else none)
        else (if n < 2 ^ 63 then some (n : Int) else none)

/-- The local struct `comicScore`. -/
structure comicScore where
  id : Int
  score : Nat
  matchedWords : Nat
  totalWords : Nat
  perfectMatch : Bool
deriving DecidableEq, Repr

/-- The set of query words: `wordsSet[word] = true` for every word of the query. -/
def makeWordsSet (words : List String) : GoMap String Bool :=
  words.foldl (fun wordsSet word => wordsSet.set word true) []

/-- The loop over the words of one comic; the state is `(matchedCount, totalMatches)`. -/
def countMatches (wordsSet : GoMap String Bool) (comicWords : List String) : Nat × Nat :=
  comicWords.foldl
    (fun counts word => if wordsSet.get word false then (counts.1 + 1, counts.2 + 1) else counts)
    (0, 0)

/-- The body of the loop over the index for one entry; `none` is `continue`. -/
def scoreComic (wordsSet : GoMap String Bool) (words : List String)
    (entry : String × List String) : Option comicScore :=
  match Atoi entry.1 with
  | none => none
  | some comicID =>
    let counts := countMatches wordsSet entry.2
    if counts.1 = 0 then none
    else
      some {
        id := comicID
        score := counts.2
        matchedWords := counts.1
        totalWords := entry.2.length
        perfectMatch := decide (counts.1 = words.length)
      }

/-- The loop over the index: the scores of the comics with a match, in the order in which
the map is walked. -/
def scoreIndex (rt : GoRuntime) (indexedComics : GoMap String (List String))
    (words : List String) : List comicScore :=
  (rt.mapOrder indexedComics).filterMap (scoreComic (makeWordsSet words) words)

/-- The `less` function handed to `sort.Slice`. -/
def rankLess (a b : comicScore) : Bool :=
  if a.perfectMatch ≠ b.perfectMatch then a.perfectMatch
  else if a.matchedWords ≠ b.matchedWords then decide (a.matchedWords > b.matchedWords)
  else if a.score ≠ b.score then decide (a.score > b.score)
  else decide (a.totalWords < b.totalWords)

/-- The ranking `sort.Slice(scores, less)`. -/
def rankScores (rt : GoRuntime) (scores : List comicScore) : List comicScore :=
  rt.sort rankLess scores

/-- The loop `for i, cs := range scores { if i >= limit { break }; comicIDs = append(comicIDs, cs.id) }`. -/
def takeIDs (limit : Int) : List comicScore → Int → List Int → List Int
  | [], _, comicIDs => comicIDs
  | cs :: rest, i, comicIDs =>
    if i ≥ limit then comicIDs else takeIDs limit rest (i + 1) (comicIDs ++ [cs.id])

/-- The constant `maxAlloc` of the Go runtime on a 64-bit platform with 48 address bits
(such as linux/amd64): the largest size of one allocation, in bytes, `2^48`. -/
def maxAlloc : Int := 281474976710656

/-- The check the runtime's `makeslice` makes for `make([]int, 0, cap)`, whose elements
take 8 bytes: `true` when it panics (`makeslice: cap out of range`), which it does for a
negative capacity and for one whose size in bytes is above `maxAlloc`, that is for more
than `2^45` elements. -/
def makeslicePanics (cap : Int) : Bool :=
  decide (cap < 0 ∨ maxAlloc < 8 * cap)

/-- The outcome of a call together with the id lists it handed to `Store.GetComicsByIDs`,
in call order. -/
structure Run where
  out : Outcome
  queries : List (List Int)
deriving DecidableEq, Repr

/-- The method `Initiator.GetIndexedComics`, for an initiator whose index is
`indexedComics`. -/
def GetIndexedComics (rt : GoRuntime) (indexedComics : GoMap String (List String))
    (db : Storager) (words : List String) (limit : Int) : Run :=
  if words.length = 0 then ⟨.ret (some []) none, []⟩
  else
    let scores := scoreIndex rt indexedComics words
    if scores.length = 0 then ⟨.ret (some []) none, []⟩
    else
      let scores := rankScores rt scores
      -- make([]int, 0, limit)
      if makeslicePanics limit then ⟨.panic, []⟩
      else
        let comicIDs := takeIDs limit scores 0 []
        match db.GetComicsByIDs comicIDs with
        | .error err => ⟨.ret none (some (.wrap "failed to get comics by ids" err)), [comicIDs]⟩
        | .ok comics => ⟨.ret (some comics) none, [comicIDs]⟩

/-- The method `Service.IndexSearch`. -/
def IndexSearch (rt : GoRuntime) (words : Words) (indexedComics : GoMap String (List String))
    (db : Storager) (phrase : String) (limit : Int) : Run :=
  match words.Norm phrase with
  | .error err => ⟨.ret none (some err), []⟩
  | .ok ws =>
    let run := GetIndexedComics rt indexedComics db ws limit
    match run.out with
    | .panic => ⟨.panic, run.queries⟩
    | .ret _ (some err) => ⟨.ret none (some err), run.queries⟩
    | .ret comics none => ⟨.ret comics none, run.queries⟩

/-! ## The relational store (search/adapters/db/storage.go) -/

/-- The table `comics`, as the list of its rows in the order a scan yields them. -/
abbrev Table := List Comics

/-- The method `DB.Search`: `SELECT id FROM comics WHERE $1 = ANY(words)`. -/
def DB.Search (rows : Table) (keyword : String) : Except Err (List Int) :=
  .ok ((rows.filter (fun c => decide (keyword ∈ c.Words))).map (fun c => c.ID))

/-- The method `DB.Get`: `SELECT id, url FROM comics WHERE id = $1`, an error when no row
has the id. -/
def DB.Get (rows : Table) (id : Int) : Except Err Comics :=
  match rows.find? (fun c => decide (c.ID = id)) with
  | none => .error (.msg "sql: no rows in result set")
  | some c => .ok { ID := c.ID, URL := c.URL, Words := [] }

/-- The method `DB.GetAllComics`: `SELECT id, url, words FROM comics`. -/
def DB.GetAllComics (rows : Table) : Except Err (List Comics) :=
  .ok rows

/-- The method `DB.GetComicsByIDs`: `SELECT id, url, words FROM comics WHERE id = ANY($1)`,
the rows in the order of the scan. -/
def DB.GetComicsByIDs (rows : Table) (ids : List Int) : Except Err (List Comics) :=
  .ok (rows.filter (fun c => decide (c.ID ∈ ids)))

/-- The store adapter over a table with the given rows. -/
def DB.store (rows : Table) : Storager where
  Search := DB.Search rows
  Get := DB.Get rows
  GetAllComics := DB.GetAllComics rows
  GetComicsByIDs := DB.GetComicsByIDs rows

/-! ## The store of the unit test `TestService_Search_Success` -/

/-- The `fakeWords` of service_test.go with words `["linux", "cpu"]`. -/
def testWords : Words where
  Norm := fun _ => .ok ["linux", "cpu"]

/-- The `fakeStorager` of `TestService_Search_Success`. -/
def testStore : Storager where
  Search := fun keyword =>
    if keyword = "linux" then .ok [1, 2] else if keyword = "cpu" then .ok [2, 3] else .ok []
  Get := fun id =>
    if id = 1 then .ok ⟨1, "url1", []⟩
    else if id = 2 then .ok ⟨2, "url2", []⟩
    else if id = 3 then .ok ⟨3, "url3", []⟩
    else .ok ⟨0, "", []⟩
  GetAllComics := .ok []
  GetComicsByIDs := fun _ => .ok []

/-- The index of `TestInitiator_GetIndexedComics_ScoringAndLimit`. -/
def testIndex : GoMap String (List String) :=
  [("1", ["linux", "cpu"]), ("2", ["linux"])]

/-- A table holding the two comics of `testIndex`. -/
def testTable : Table :=
  [⟨1, "u1", ["linux", "cpu"]⟩, ⟨2, "u2", ["linux"]⟩]

/-- The store of `TestService_Search_Success` with a `Get` that fails for id 2. -/
def failingGetStore : Storager where
  Search := testStore.Search
  Get := fun id => if id = 2 then .error (.msg "get error") else testStore.Get id
  GetAllComics := testStore.GetAllComics
  GetComicsByIDs := testStore.GetComicsByIDs

/-- An index in which stems repeat: comic 1 holds both query words `linux` and `cpu`,
comic 2 holds `linux` twice and lacks `cpu`. -/
def repeatIndex : GoMap String (List String) :=
  [("1", ["linux", "cpu", "linux"]), ("2", ["linux", "linux"])]

/-- An index and a table in which the better match has the larger id. -/
def rankIndex : GoMap String (List String) :=
  [("1", ["linux"]), ("2", ["linux", "cpu"])]

/-- The rows behind `rankIndex`, in primary-key order. -/
def rankTable : Table :=
  [⟨1, "u1", ["linux"]⟩, ⟨2, "u2", ["linux", "cpu"]⟩]

/-- A normalizer for which every phrase has no keywords (a phrase of stop words). -/
def emptyWords : Words where
  Norm := fun _ => .ok []

/-! ## Hit counts, as the specification words them -/

/-- The ids `Store.Search` finds for one keyword (none when the search fails). -/
def foundIDs (db : Storager) (keyword : String) : List Int :=
  match db.Search keyword with
  | .ok IDs => IDs
  | .error _ => []

/-- The lists `Store.Search(k)` over every keyword `k` of the query, one after the other. -/
def allHits (db : Storager) : List String → List Int
  | [] => []
  | keyword :: rest => foundIDs db keyword ++ allHits db rest

/-- The hit count of an id: the number of times it occurs across the lists
`Store.Search(k)` taken over every keyword `k` of the query. -/
def hitCount (db : Storager) (keywords : List String) (id : Int) : Nat :=
  (allHits db keywords).count id

/-- The outcome "all the comics that have at least one hit": a success whose list holds
`Store.Get(id)` for the ids with a hit, each id once. -/
def ReturnsAllHits (db : Storager) (keywords : List String) (out : Outcome) : Prop :=
  ∃ result, out = .ret (some result) none ∧
    ∃ ids : List Int, ids.Nodup ∧ (∀ id, id ∈ ids ↔ 0 < hitCount db keywords id) ∧
      List.Forall₂ (fun id comics => db.Get id = .ok comics) ids result

/-- The ids that survive the limit in `Service.Search`: the slice `sorted[:limit]`
(empty when the call does not get that far). -/
def survivingIDs (rt : GoRuntime) (db : Storager) (keywords : List String) (limit : Int) :
    List Int :=
  match collectScores db keywords [] with
  | .error _ => []
  | .ok scores => (limitResults (sortedIDs rt scores) limit).getD []

/-- The collaborator failures of one `Service.Search` call that produce the error `err`:
`Normalize` fails with it, or `Store.Search` does for a query keyword, or `Store.Get` does
for an id that survives the limit. -/
def FailsWith (rt : GoRuntime) (words : Words) (db : Storager) (phrase : String) (limit : Int)
    (err : Err) : Prop :=
  words.Norm phrase = .error err ∨
  ∃ keywords, words.Norm phrase = .ok keywords ∧
    ((∃ keyword ∈ keywords, db.Search keyword = .error err) ∨
     (∃ id ∈ survivingIDs rt db keywords limit, db.Get id = .error err))

/-- The record of the ranking for an index entry, stated on the entry itself and not
through the loop of the source: none for an entry whose key is no decimal id or whose
`matched` is 0, otherwise the record with `matched` the number of positions of the stem
list whose stem is a query keyword (every occurrence counts), `score` equal to `matched`,
`total` the length of the stem list and `perfect` whether `matched` is the number of
keywords. -/
def rankedComic (words : List String) (entry : String × List String) : Option comicScore :=
  match Atoi entry.1 with
  | none => none
  | some id =>
    let matched := entry.2.countP (fun stem => decide (stem ∈ words))
    if matched = 0 then none
    else some ⟨id, matched, matched, entry.2.length, decide (matched = words.length)⟩

/-- The number of distinct stems of a comic that belong to the query keyword set. -/
def distinctMatched (words comicWords : List String) : Nat :=
  ((comicWords.filter (fun word => decide (word ∈ words))).dedup).length

/-- The lexicographic key (perfect descending, matched descending, score descending,
total ascending): `a` comes strictly before `b`. -/
def keyBefore (a b : comicScore) : Prop :=
  (a.perfectMatch = true ∧ b.perfectMatch = false) ∨
  (a.perfectMatch = b.perfectMatch ∧
    (a.matchedWords > b.matchedWords ∨
     (a.matchedWords = b.matchedWords ∧
       (a.score > b.score ∨ (a.score = b.score ∧ a.totalWords < b.totalWords)))))

/-! ## `Initiator.IndexComics` and `Initiator.ClearIndex` (search/adapters/initiator/initiator.go) -/

/-- The character of the decimal digit `d`. -/
def digitChar (d : Nat) : Char :=
  Char.ofNat ('0'.toNat + d)

/-- The decimal digits of `n`, most significant first; `fuel` bounds the number of
digits and `n + 1` always suffices. -/
def itoaDigits : Nat → Nat → List Char
  | 0, _ => []
  | fuel + 1, n =>
    if n < 10 then [digitChar n] else itoaDigits fuel (n / 10) ++ [digitChar (n % 10)]

/-- Go's `strconv.Itoa`: the decimal digits, after a minus sign for a negative number. -/
def Itoa (i : Int) : String :=
  match i with
  | .ofNat n => String.mk (itoaDigits (n + 1) n)
  | .negSucc n => String.mk ('-' :: itoaDigits (n + 2) (n + 1))

/-- The loop `for _, comic := range comics { indexedComics[strconv.Itoa(comic.ID)] = comic.Words }`. -/
def indexAll (indexedComics : GoMap String (List String)) (comics : List Comics) :
    GoMap String (List String) :=
  comics.foldl (fun index comic => index.set (Itoa comic.ID) comic.Words) indexedComics

/-- The method `Initiator.IndexComics`: the index after the call and the returned error. -/
def IndexComics (indexedComics : GoMap String (List String)) (db : Storager) :
    GoMap String (List String) × Option Err :=
  match db.GetAllComics with
  | .error err => (indexedComics, some err)
  | .ok comics => (indexAll indexedComics comics, none)

/-- The method `Initiator.ClearIndex`: the index after the call and the returned error. -/
def ClearIndex (_indexedComics : GoMap String (List String)) :
    GoMap String (List String) × Option Err :=
  ([], none)

/-- A store whose `GetAllComics` fails. -/
def failingAllStore : Storager where
  Search := fun _ => .ok []
  Get := fun _ => .error (.msg "db is down")
  GetAllComics := .error (.msg "db is down")
  GetComicsByIDs := fun _ => .error (.msg "db is down")

/-- The rows of `TestInitiator_IndexComics_BuildsIndex`. -/
def buildTable : Table :=
  [⟨1, "u1", ["a", "b"]⟩, ⟨2, "u2", ["b", "c"]⟩]

/-- An index that still holds comic 5, which the table no longer has. -/
def staleIndex : GoMap String (List String) :=
  [("5", ["linux"])]

/-! ## Errors and responses shared by the services -/

/-- The method `Error()` of an error: its text, a wrapped error after its own text. -/
def Err.Error : Err → String
  | .msg text => text
  | .wrap pre inner => pre ++ ": " ++ inner.Error
  | .sentinel _ text => text

/-- Go's `errors.Is(err, target)` for a `target` that is a package-level variable, as in
every call of the sources: it walks the chain of `err` through `Unwrap` and compares each
link with `target` by `==`, which on the pointers behind error values is identity. A
link is `target` only when it is that same variable; an error made where the failure
happens is another value even when its text is the text of `target`. -/
def errorsIs : Err → Err → Bool
  | .msg _, _ => false
  | .wrap _ inner, target => errorsIs inner target
  | .sentinel name text, target => decide (Err.sentinel name text = target)

/-! ## The exclusive-run gate of the update service -/

/-- Modelled from the spec: the sentinel error `core.ErrAlreadyExists` of the update
service (`ALREADY_RUNNING`); update/core/service.go and its errors are not among the
sources. -/
def Update.ErrAlreadyExists : Err :=
  .sentinel "update/core.ErrAlreadyExists" "already exists"

/-- The type `ServiceStatus` of update/core/models.go with its two values. -/
inductive ServiceStatus where
  | StatusRunning
  | StatusIdle
deriving DecidableEq, Repr

/-- Modelled from the spec: the state of the update service's exclusive-run gate, with the
two fields the unit tests of update/core/service_test.go touch: the mutex `lock` (true
when held) and the atomic flag `inProgress`. The service itself (update/core/service.go)
is not among the sources. -/
structure UpdateService where
  lock : Bool
  inProgress : Bool
deriving DecidableEq, Repr

/-- Modelled from the spec: `Status` is a non-blocking snapshot, `RUNNING` while the
in-progress flag is set and `IDLE` otherwise. -/
def UpdateService.Status (s : UpdateService) : ServiceStatus :=
  if s.inProgress then .StatusRunning else .StatusIdle

/-- Modelled from the spec: the non-blocking try-acquire of the single-holder gate; `none`
when the gate is already held. -/
def UpdateService.tryAcquire (s : UpdateService) : Option UpdateService :=
  if s.lock then none else some { lock := true, inProgress := true }

/-- Modelled from the spec: the release of the gate, on every exit path of a run. -/
def UpdateService.release (_s : UpdateService) : UpdateService :=
  { lock := false, inProgress := false }

/-- Modelled from the spec: `Update` fails with `ALREADY_RUNNING` when the gate is held,
without waiting for it; otherwise it holds the gate for the length of the catalog
synchronization `sync` (which sees the service in the held state and yields the error of
the run, if any) and releases it afterwards. The result is the service after the call and
the returned error. -/
def UpdateService.Update (s : UpdateService) (sync : UpdateService → Option Err) :
    UpdateService × Option Err :=
  match s.tryAcquire with
  | none => (s, some Update.ErrAlreadyExists)
  | some held => (held.release, sync held)

/-! ## The API gateway: responses (api/adapters/rest) -/

/-- The struct `rest.Comics` of api/adapters/rest/dto.go. -/
structure Rest.Comics where
  ID : Int
  URL : String
deriving DecidableEq, Repr

/-- The struct `rest.ComicsReply` of api/adapters/rest/dto.go. -/
structure Rest.ComicsReply where
  Comics : List Rest.Comics
  Total : Nat
deriving DecidableEq, Repr

/-- What a handler does to its `http.ResponseWriter`: `http.Error(w, message, code)`, or
`encodeReply(w, reply)` on a fresh writer, or nothing at all. -/
inductive Response where
  | httpError (message : String) (code : Nat)
  | json (reply : Rest.ComicsReply)
  | empty
deriving DecidableEq, Repr

/-- The status code the client sees: the code of `http.Error`, and 200 when the handler
writes a body without a header or returns without writing. -/
def Response.status : Response → Nat
  | .httpError _ code => code
  | .json _ => 200
  | .empty => 200

/-- The constant `http.StatusAccepted`. -/
def StatusAccepted : Nat := 202

/-- The constant `http.StatusBadRequest`. -/
def StatusBadRequest : Nat := 400

/-- The constant `http.StatusUnauthorized`. -/
def StatusUnauthorized : Nat := 401

/-- The constant `http.StatusNotFound`. -/
def StatusNotFound : Nat := 404

/-- The constant `http.StatusInternalServerError`. -/
def StatusInternalServerError : Nat := 500

/-- The constant `http.StatusServiceUnavailable`. -/
def StatusServiceUnavailable : Nat := 503

/-! ## The `Auth` middleware (api/adapters/rest/middleware/auth.go) -/

/-- Go's `unicode.IsSpace`. -/
def isSpace (c : Char) : Bool :=
  let n := c.toNat
  n = 0x09 || n = 0x0A || n = 0x0B || n = 0x0C || n = 0x0D || n = 0x20 || n = 0x85 ||
  n = 0xA0 || n = 0x1680 || (0x2000 ≤ n && n ≤ 0x200A) || n = 0x2028 || n = 0x2029 ||
  n = 0x202F || n = 0x205F || n = 0x3000

/-- Go's `strings.TrimSpace`: the string without its leading and trailing white space. -/
def stringsTrimSpace (s : String) : String :=
  String.mk (((s.toList.dropWhile isSpace).reverse.dropWhile isSpace).reverse)

/-- Go's `strings.HasPrefix`. -/
def stringsHasPrefix (s start : String) : Bool :=
  start.toList.isPrefixOf s.toList

/-- The slice expression `s[n:]` for an `n` that ends an ASCII start of `s`. -/
def sliceFrom (s : String) (n : Nat) : String :=
  String.mk (s.toList.drop n)

/-- What the handler returned by a middleware did with one request: its response, and
whether the wrapped handler `next` was called. -/
structure Served where
  response : Response
  nextCalled : Bool
deriving DecidableEq, Repr

/-- The handler returned by `Auth(next, verifier)`, on a request whose `Authorization`
header is `authHeader` (empty when the header is absent); `next` is the response of the
wrapped handler to the request and `verifier` is `verifier.Verify`, `none` for a nil
error. -/
def Auth (next : Response) (verifier : String → Option Err) (authHeader : String) : Served :=
  if authHeader = "" ∨ ¬ stringsHasPrefix authHeader "Token " then
    ⟨.httpError "unauthorized" StatusUnauthorized, false⟩
  else
    let token := stringsTrimSpace (sliceFrom authHeader "Token ".length)
    if token = "" then ⟨.httpError "unauthorized" StatusUnauthorized, false⟩
    else
      match verifier token with
      | some _ => ⟨.httpError "unauthorized" StatusUnauthorized, false⟩
      | none => ⟨next, true⟩

/-- The `fakeVerifier` of auth_test.go, which returns the same result for every token. -/
def fakeVerifier (err : Option Err) : String → Option Err :=
  fun _ => err

/-! ## The `Concurrency` middleware (api/adapters/rest/middleware/concurrency.go) -/

/-- The state of the handler returned by `Concurrency(next, limit)` while requests are
served in parallel: the number of values in the channel `semaphore`, the number of
requests inside `next(w, r)`, and the number of requests that are back from `next` and
have not yet executed `<-semaphore`. -/
structure ConcurrencyState where
  semaphore : Nat
  inNext : Nat
  leaving : Nat
deriving DecidableEq, Repr

/-- The steps of the requests, each atomic: a request reaches the `select`; a request
returns from `next`; a request executes `<-semaphore`. -/
inductive ConcurrencyEvent where
  | arrive
  | nextReturns
  | receive
deriving DecidableEq, Repr

/-- One step of the handler returned by `Concurrency(next, limit)`; `limit` is the
capacity of the channel. The result is `none` when the step cannot be taken in the state
(no request is at that point, or the receive would block), and otherwise the next state
and the response written by the step, if any. An arriving request sends to the channel
when it has room and enters `next`; otherwise the `default` branch answers 503. -/
def Concurrency (limit : Nat) (s : ConcurrencyState) :
    ConcurrencyEvent → Option (ConcurrencyState × Option Response)
  | .arrive =>
    if s.semaphore < limit then
      some ({ s with semaphore := s.semaphore + 1, inNext := s.inNext + 1 }, none)
    else
      some (s, some (.httpError "Service Unavailable" StatusServiceUnavailable))
  | .nextReturns =>
    if 0 < s.inNext then
      some ({ s with inNext := s.inNext - 1, leaving := s.leaving + 1 }, none)
    else none
  | .receive =>
    if 0 < s.leaving ∧ 0 < s.semaphore then
      some ({ s with semaphore := s.semaphore - 1, leaving := s.leaving - 1 }, none)
    else none

/-- The state in which `Concurrency(next, limit)` returns its handler: an empty channel
and no request. -/
def ConcurrencyState.init : ConcurrencyState :=
  { semaphore := 0, inNext := 0, leaving := 0 }

/-- The state after a sequence of steps; `none` when one of them cannot be taken. -/
def runConcurrency (limit : Nat) : ConcurrencyState → List ConcurrencyEvent →
    Option ConcurrencyState
  | s, [] => some s
  | s, event :: rest =>
    match Concurrency limit s event with
    | none => none
    | some (s', _) => runConcurrency limit s' rest

/-! ## The search and update handlers (api/adapters/rest/api.go) -/

/-- Modelled from the spec: the sentinel error `core.ErrNotFound` of the api service
(`NOT_FOUND`); the package api/core is not among the sources. -/
def Api.ErrNotFound : Err :=
  .sentinel "api/core.ErrNotFound" "not found"

/-- Modelled from the spec: the sentinel error `core.ErrAlreadyExists` of the api service
(`ALREADY_RUNNING`); the package api/core is not among the sources. -/
def Api.ErrAlreadyExists : Err :=
  .sentinel "api/core.ErrAlreadyExists" "already exists"

/-- Modelled from the spec: the struct `core.Comics` of the api service, with the two
fields api/adapters/search/search.go fills and the handlers read; the package api/core is
not among the sources. -/
structure Api.Comics where
  ID : Int
  URL : String
deriving DecidableEq, Repr

/-- Modelled from the spec: the interface `core.Searcher` of the api service, with the two
methods the handlers call; the package api/core is not among the sources. -/
structure Api.Searcher where
  Search : String → Int → Except Err (List Api.Comics)
  SearchIndex : String → Int → Except Err (List Api.Comics)

/-- The query of a request URL: its `key=value` pairs in order, decoded. -/
abbrev Query := List (String × String)

/-- The expression `r.URL.Query().Get(key)`: the first value of the key, the empty string
when the key is absent. -/
def Query.Get (query : Query) (key : String) : String :=
  match query with
  | [] => ""
  | (k, v) :: rest => if k = key then v else Query.Get rest key

/-- What a search handler did with one request: its response and the calls
`(phrase, limit)` it made to the backend. -/
structure Handled where
  response : Response
  calls : List (String × Int)
deriving DecidableEq, Repr

/-- The part of both search handlers that reads `limit`: `none` is the answer
`http.Error(w, "bad limit", 400)`. -/
def readLimit (limitStr : String) : Option Int :=
  if limitStr ≠ "" then
    match Atoi limitStr with
    | none => none
    | some limit => if limit < 0 then none else some limit
  else some 0

/-- The body shared, line for line, by the handlers of `NewSearchHandler` and
`NewIndexSearchHandler`; `search` is the backend method the handler calls. -/
def serveSearch (search : String → Int → Except Err (List Api.Comics)) (query : Query) :
    Handled :=
  match readLimit (query.Get "limit") with
  | none => ⟨.httpError "bad limit" StatusBadRequest, []⟩
  | some limit =>
    let phrase := query.Get "phrase"
    if phrase = "" then ⟨.httpError "no phrase" StatusBadRequest, []⟩
    else
      match search phrase limit with
      | .error err =>
        if errorsIs err Api.ErrNotFound then
          ⟨.httpError "no comics found" StatusNotFound, [(phrase, limit)]⟩
        else ⟨.httpError err.Error StatusInternalServerError, [(phrase, limit)]⟩
      | .ok comics =>
        ⟨.json { Comics := comics.map (fun c => { ID := c.ID, URL := c.URL }),
                 Total := comics.length },
          [(phrase, limit)]⟩

/-- The handler of `NewSearchHandler(log, searcher)`, for `GET /api/search`. -/
def NewSearchHandler (searcher : Api.Searcher) (query : Query) : Handled :=
  serveSearch searcher.Search query

/-- The handler of `NewIndexSearchHandler(log, searcher)`, for `GET /api/isearch`. -/
def NewIndexSearchHandler (searcher : Api.Searcher) (query : Query) : Handled :=
  serveSearch searcher.SearchIndex query

/-- The handler of `NewUpdateHandler(log, updater)`; `update` is the result of
`updater.Update`, `none` for a nil error. -/
def NewUpdateHandler (update : Option Err) : Response :=
  match update with
  | some err =>
    if errorsIs err Api.ErrAlreadyExists then .httpError err.Error StatusAccepted
    else .httpError err.Error StatusInternalServerError
  | none => .empty

/-- The `fakeSearcher` of api_test.go: both methods return the same result for every
phrase and limit. -/
def fakeSearcher (result : Except Err (List Api.Comics)) : Api.Searcher where
  Search := fun _ _ => result
  SearchIndex := fun _ _ => result

/-- The query of `GET /api/search?limit=abc`. -/
def badLimitQuery : Query :=
  [("limit", "abc")]

/-- The query of `GET /api/search?phrase=linux&limit=1`. -/
def linuxQuery : Query :=
  [("phrase", "linux"), ("limit", "1")]

/-! ## `Initiator.Start` and `Initiator.Close` (search/adapters/initiator/initiator.go) -/

/-- The case the `select` of the loop in `Start` takes in one iteration: a value from
`ticker.C`, or a receive from `stopCh`, which is ready in every iteration once `Close`
has closed the channel. -/
inductive SelectCase where
  | tick
  | stop
deriving DecidableEq, Repr

/-- The initiator while `Start` runs: its index, the number of rebuilds the loop has made,
and whether `Start` has returned. -/
structure StartState where
  indexedComics : GoMap String (List String)
  rebuilds : Nat
  returned : Bool
deriving DecidableEq, Repr

/-- One iteration of the loop `for { select { ... } }` of `Start`. The timer case rebuilds
the index (an error is logged only); the stop case logs a message and, having no `return`
or `break`, falls out of the `select` into the next iteration. -/
def startIteration (db : Storager) (s : StartState) (ready : SelectCase) : StartState :=
  match ready with
  | .tick =>
    { s with indexedComics := (IndexComics s.indexedComics db).1, rebuilds := s.rebuilds + 1 }
  | .stop => s

/-- The method `Start` up to the point where the loop has taken the given cases: the build
on startup, then one iteration per case, for as long as `Start` has not returned. -/
def Start (db : Storager) (indexedComics : GoMap String (List String))
    (cases : List SelectCase) : StartState :=
  cases.foldl
    (fun s ready => if s.returned then s else startIteration db s ready)
    { indexedComics := (IndexComics indexedComics db).1, rebuilds := 0, returned := false }

/-! ## The bus listener of the search service (search/adapters/nats/subscriber.go) -/

/-- The interface `core.Initiator` of search/core/ports.go, as far as the listener uses it,
over a state `σ` of the initiator. -/
structure Initiator (σ : Type) where
  IndexComics : σ → σ × Option Err
  ClearIndex : σ → σ × Option Err

/-- A call the listener makes to the initiator. -/
inductive InitiatorCall where
  | IndexComics
  | ClearIndex
deriving DecidableEq, Repr

/-- The message handler `Listener.Listen` subscribes: the state of the initiator after the
message and the calls made to it. The handler has no result, and the error of a call is
logged only. -/
def Listener.handle {σ : Type} (initiator : Initiator σ) (message : String) (s : σ) :
    σ × List InitiatorCall :=
  if message = "update" then ((initiator.IndexComics s).1, [.IndexComics])
  else if message = "drop" then ((initiator.ClearIndex s).1, [.ClearIndex])
  else (s, [])

/-- The `Initiator` of initiator.go over a store, with the index as its state. -/
def indexInitiator (db : Storager) : Initiator (GoMap String (List String)) where
  IndexComics := fun index => IndexComics index db
  ClearIndex := fun index => ClearIndex index

/-! ## The bus publisher of the update service (update/adapters/nats/publisher.go) -/

/-- The constant `topic`. -/
def topic : String := "xkcd.db.updated"

/-- The constant `EventTypeUpdating` of update/core/models.go. -/
def EventTypeUpdating : String := "update"

/-- The constant `EventTypeDropped` of update/core/models.go. -/
def EventTypeDropped : String := "drop"

/-- The method `Notificator.Publish`: the messages `(subject, payload)` handed to the
connection and the returned error; `ncPublish` is the connection's `Publish`, `none` for a
nil error. The payload `[]byte(event)` is written as the string it holds. -/
def Notificator.Publish (ncPublish : String → String → Option Err) (event : String) :
    List (String × String) × Option Err :=
  match ncPublish topic event with
  | some err => ([(topic, event)], some (.msg ("failed to publish message: " ++ err.Error)))
  | none => ([(topic, event)], none)

/-! ## The words server (words/main.go) -/

/-- The constant `maxPhraseLen`. -/
def maxPhraseLen : Nat := 20000

/-- The gRPC code `codes.ResourceExhausted`. -/
def ResourceExhausted : Nat := 8

/-- An error made by `status.Errorf(code, ...)`. -/
structure StatusError where
  code : Nat
  message : String
deriving DecidableEq, Repr

/-- The method `server.Norm`; `norm` is the normalizer `words.Norm`, whose source is not
among the files, and `len(in.Phrase)` is the length of the phrase in bytes. -/
def server.Norm (norm : String → List String) (phrase : String) :
    Except StatusError (List String) :=
  if phrase.utf8ByteSize > maxPhraseLen then
    .error ⟨ResourceExhausted, "phrase is too long, max length is " ++ Itoa maxPhraseLen⟩
  else .ok (norm phrase)

/-- A phrase of `n` letters `a`. -/
def phraseOfLength (n : Nat) : String :=
  String.mk (List.replicate n 'a')

/-! ## Tokens of the API gateway (api/adapters/aaa/auth.go)

The library `github.com/golang-jwt/jwt/v5` is modelled symbolically: a token string is
given by what it decodes to, and a signature verifies under a key exactly when it is the
MAC made with that key. Instants are in nanoseconds. -/

/-- The signing methods of the library: the HMAC family (`*jwt.SigningMethodHMAC`) and
every other `alg`. -/
inductive SigningMethod where
  | HS256
  | HS384
  | HS512
  | other (alg : String)
deriving DecidableEq, Repr

/-- The type assertion `token.Method.(*jwt.SigningMethodHMAC)`. -/
def SigningMethod.isHMAC : SigningMethod → Bool
  | .other _ => false
  | _ => true

/-- The header value `alg` of a signing method. -/
def SigningMethod.alg : SigningMethod → String
  | .HS256 => "HS256"
  | .HS384 => "HS384"
  | .HS512 => "HS512"
  | .other alg => alg

/-- The claims of a token as `jwt.Parse` reads them (`jwt.MapClaims`), as far as this code
and the library's validator look at them: `sub` when it is a string, and the instants
`iat`, `exp`, `nbf` when present. -/
structure MapClaims where
  sub : Option String
  iat : Option Int
  exp : Option Int
  nbf : Option Int
deriving DecidableEq, Repr

/-- The third part of a token: the MAC of the first two parts made with `key` by the
method of the header, or anything else. -/
inductive Signature where
  | mac (key : String)
  | invalid
deriving DecidableEq, Repr

/-- A token string, by what it decodes to: not a well-formed token (any other text, the
empty string included), or a header with its method, claims and a signature. -/
inductive TokenString where
  | malformed (text : String)
  | jwt (method : SigningMethod) (claims : MapClaims) (signature : Signature)
deriving DecidableEq, Repr

/-- The subject claim of a token string, if it has one. -/
def TokenString.subject : TokenString → Option String
  | .malformed _ => none
  | .jwt _ claims _ => claims.sub

/-- The struct `jwt.Token` after `jwt.Parse`, as far as `Verify` reads it. -/
structure Token where
  Valid : Bool
  Claims : MapClaims
deriving DecidableEq, Repr

/-- The library's `jwt.NewNumericDate`: the instant truncated to the second. -/
def NewNumericDate (t : Int) : Int :=
  t / 1000000000 * 1000000000

/-- The library's `token.SignedString(key)` for `jwt.NewWithClaims(method, claims)` with the
registered claims subject, issued-at and expires-at. -/
def SignedString (method : SigningMethod) (subject : String) (issuedAt expiresAt : Int)
    (key : String) : Except Err TokenString :=
  .ok (.jwt method { sub := some subject, iat := some issuedAt, exp := some expiresAt,
                     nbf := none } (.mac key))

/-- The library's `jwt.Parse(tokenString, keyFunc)` at the instant `now`: the token must be
well formed, `keyFunc` must yield a key, the signature must verify under it, and the
validator must accept `exp` (`now` before it) and `nbf` (`now` not before it) when they are
present. -/
def jwtParse (tokenString : TokenString) (keyFunc : SigningMethod → Except Err String)
    (now : Int) : Except Err Token :=
  match tokenString with
  | .malformed _ => .error (.msg "token is malformed")
  | .jwt method claims signature =>
    match keyFunc method with
    | .error err => .error (.wrap "token is unverifiable" err)
    | .ok key =>
      if signature ≠ .mac key then .error (.msg "token signature is invalid")
      else if claims.exp.any (fun exp => decide (¬ now < exp)) then
        .error (.msg "token has invalid claims: token is expired")
      else if claims.nbf.any (fun nbf => decide (now < nbf)) then
        .error (.msg "token has invalid claims: token is not valid yet")
      else .ok { Valid := true, Claims := claims }

/-- The constant `secretKey`. -/
def secretKey : String := "something secret here"

/-- The constant `adminRole`. -/
def adminRole : String := "superuser"

/-- The struct `AAA`. -/
structure AAA where
  users : GoMap String String
  tokenTTL : Int
deriving DecidableEq, Repr

/-- Map read `v, ok := m[k]`: `none` when `ok` is false. -/
def GoMap.lookup {κ ν : Type} [DecidableEq κ] (m : GoMap κ ν) (k : κ) : Option ν :=
  match m with
  | [] => none
  | (k', v) :: rest => if k' = k then some v else GoMap.lookup rest k

/-- The function `New`; `lookupEnv` is `os.LookupEnv`. -/
def AAA.New (lookupEnv : String → Option String) (tokenTTL : Int) : Except Err AAA :=
  match lookupEnv "ADMIN_USER" with
  | none => .error (.msg "could not get admin user from enviroment")
  | some user =>
    match lookupEnv "ADMIN_PASSWORD" with
    | none => .error (.msg "could not get admin password from enviroment")
    | some password => .ok { users := [(user, password)], tokenTTL := tokenTTL }

/-- The method `AAA.Login` at the instant `now` (`time.Now()`): the returned token string
and error. -/
def AAA.Login (a : AAA) (now : Int) (name password : String) : TokenString × Option Err :=
  match a.users.lookup name with
  | none => (.malformed "", some (.msg "invalid credentials"))
  | some expectedPassword =>
    if expectedPassword ≠ password then (.malformed "", some (.msg "invalid credentials"))
    else
      match SignedString .HS256 adminRole (NewNumericDate now)
          (NewNumericDate (now + a.tokenTTL)) secretKey with
      | .error err => (.malformed "", some (.wrap "failed to generate token" err))
      | .ok tokenString => (tokenString, none)

/-- The key function `Verify` hands to `jwt.Parse`. -/
def verifyKeyFunc (method : SigningMethod) : Except Err String :=
  if method.isHMAC then .ok secretKey
  else .error (.msg ("unexpected signing method: " ++ method.alg))

/-- The method `AAA.Verify` at the instant `now`; `none` is the nil error. -/
def AAA.Verify (_a : AAA) (now : Int) (tokenString : TokenString) : Option Err :=
  match jwtParse tokenString verifyKeyFunc now with
  | .error err => some (.wrap "failed to parse token" err)
  | .ok token =>
    if ¬ token.Valid then some (.msg "invalid token")
    else
      match token.Claims.sub with
      | none => some (.msg "invalid token subject")
      | some subject =>
        if subject ≠ adminRole then some (.msg "invalid token subject") else none

/-- The environment of auth_test.go: `ADMIN_USER=admin`, `ADMIN_PASSWORD=password`. -/
def testEnv (name : String) : Option String :=
  if name = "ADMIN_USER" then some "admin"
  else if name = "ADMIN_PASSWORD" then some "password"
  else none

/-- The `AAA` of auth_test.go: built from `testEnv` with a TTL of one minute. -/
def testAAA : AAA :=
  { users := [("admin", "password")], tokenTTL := 60000000000 }

/-! ## `StringArray` (search/adapters/db/storage.go) -/

/-- The characters left of a string when the leading and the trailing characters that
satisfy `cut` are removed. -/
def trimChars (cut : Char → Bool) (s : List Char) : List Char :=
  ((s.dropWhile cut).reverse.dropWhile cut).reverse

/-- Go's `strings.Trim(s, cutset)`. -/
def stringsTrim (s cutset : String) : String :=
  String.mk (trimChars (fun c => decide (c ∈ cutset.toList)) s.toList)

/-- Go's `strings.Split(s, sep)` for a separator of one character. -/
def stringsSplit (s : String) (sep : Char) : List String :=
  (s.toList.splitOn sep).map String.mk

/-- The argument of `Scan`: `nil`, a string, or a value of another type. -/
inductive DriverValue where
  | null
  | text (str : String)
  | other
deriving DecidableEq, Repr

/-- The method `StringArray.Scan`: the array after the call (it is `a` before the call) and
the returned error. -/
def StringArray.Scan (a : List String) (value : DriverValue) : List String × Option Err :=
  match value with
  | .null => ([], none)
  | .other => (a, none)
  | .text str =>
    let str := stringsTrim str "\x7b\x7d"
    if str = "" then ([], none)
    else ((stringsSplit str ',').map (fun part => stringsTrim part "\""), none)

/-- The loop of `Value` over the elements, `i` being the index of the first of them and `b`
the builder. -/
def writeElements : List String → Nat → String → String
  | [], _, b => b
  | s :: rest, i, b =>
    writeElements rest (i + 1) ((if i > 0 then b ++ "," else b) ++ "\"" ++ s ++ "\"")

/-- The method `StringArray.Value`; its error is always nil. -/
def StringArray.Value (a : List String) : String :=
  if a.length = 0 then "\x7b\x7d" else writeElements a 0 "\x7b" ++ "\x7d"

/-- An element of the array between its two double quotes, as `Value` writes it. -/
def quoted (s : String) : List Char :=
  '"' :: (s.toList ++ ['"'])

/-! ## The runtime's guarantees hold for insertion sort -/

theorem insertSorted_perm {α : Type} (less : α → α → Bool) (a : α) (l : List α) :
    (insertSorted less a l).Perm (a :: l) := by
  induction l with
  | nil => exact List.Perm.refl _
  | cons b rest ih =>
    unfold insertSorted
    split
    · exact ((List.Perm.cons b ih).trans (List.Perm.swap a b rest))
    · exact List.Perm.refl _

theorem insertionSort_perm {α : Type} (less : α → α → Bool) (l : List α) :
    (insertionSort less l).Perm l := by
  induction l with
  | nil => exact List.Perm.refl _
  | cons a rest ih =>
    unfold insertionSort
    exact (insertSorted_perm less a _).trans (List.Perm.cons a ih)

theorem insertSorted_sorted {α : Type} (less : α → α → Bool) (hsw : StrictWeak less) (a : α)
    (l : List α) (hl : l.Pairwise (fun x y => less y x = false)) :
    (insertSorted less a l).Pairwise (fun x y => less y x = false) := by
  induction l with
  | nil => simp [insertSorted]
  | cons b rest ih =>
    rw [List.pairwise_cons] at hl
    unfold insertSorted
    split
    · rename_i hba
      rw [List.pairwise_cons]
      refine ⟨?_, ih hl.2⟩
      intro x hx
      have hx' := (insertSorted_perm less a rest).subset hx
      rcases List.mem_cons.mp hx' with rfl | hxr
      · exact hsw.asymm b x hba
      · exact hl.1 x hxr
    · rename_i hba
      have hba' : less b a = false := by simpa using hba
      rw [List.pairwise_cons]
      refine ⟨?_, List.pairwise_cons.mpr hl⟩
      intro x hx
      rcases List.mem_cons.mp hx with rfl | hxr
      · exact hba'
      · exact hsw.negTrans x b a (hl.1 x hxr) hba'

theorem insertionSort_sorted {α : Type} (less : α → α → Bool) (hsw : StrictWeak less)
    (l : List α) : (insertionSort less l).Pairwise (fun x y => less y x = false) := by
  induction l with
  | nil => simp [insertionSort]
  | cons a rest ih =>
    unfold insertionSort
    exact insertSorted_sorted less hsw a _ ih

theorem stableRuntime_lawful : stableRuntime.Lawful where
  mapOrder_perm := fun l => List.Perm.refl l
  sort_perm := fun less l => insertionSort_perm less l
  sort_sorted := fun less l hsw => insertionSort_sorted less hsw l

theorem reverseRuntime_lawful : reverseRuntime.Lawful where
  mapOrder_perm := fun l => List.reverse_perm l
  sort_perm := fun less l => insertionSort_perm less l
  sort_sorted := fun less l hsw => insertionSort_sorted less hsw l

/-! ## Go maps -/

theorem GoMap.get_set {κ ν : Type} [DecidableEq κ] (m : GoMap κ ν) (k k' : κ) (v zero : ν) :
    (m.set k v).get k' zero = if k = k' then v else m.get k' zero := by
  induction m with
  | nil => simp [GoMap.set, GoMap.get]
  | cons e rest ih =>
    obtain ⟨k0, v0⟩ := e
    by_cases h0 : k0 = k
    · subst h0
      by_cases h1 : k0 = k' <;> simp [GoMap.set, GoMap.get, h1]
    · by_cases h1 : k0 = k'
      · subst h1
        have : ¬ k = k0 := fun h => h0 h.symm
        simp [GoMap.set, GoMap.get, h0, this]
      · simp [GoMap.set, GoMap.get, h0, h1, ih]

theorem GoMap.mem_keys_set {κ ν : Type} [DecidableEq κ] (m : GoMap κ ν) (k k' : κ) (v : ν) :
    k' ∈ (m.set k v).keys ↔ k' = k ∨ k' ∈ m.keys := by
  induction m with
  | nil => simp [GoMap.set, GoMap.keys]
  | cons e rest ih =>
    obtain ⟨k0, v0⟩ := e
    simp only [GoMap.keys] at ih
    by_cases h0 : k0 = k
    · subst h0
      simp [GoMap.set, GoMap.keys]
    · simp only [GoMap.set, GoMap.keys, h0, if_false, List.map_cons, List.mem_cons, ih]
      tauto

theorem GoMap.nodup_keys_set {κ ν : Type} [DecidableEq κ] (m : GoMap κ ν) (k : κ) (v : ν)
    (h : m.keys.Nodup) : (m.set k v).keys.Nodup := by
  induction m with
  | nil => simp [GoMap.set, GoMap.keys]
  | cons e rest ih =>
    obtain ⟨k0, v0⟩ := e
    simp only [GoMap.keys, List.map_cons, List.nodup_cons] at h
    by_cases h0 : k0 = k
    · subst h0
      simpa [GoMap.set, GoMap.keys] using h
    · have hmem := GoMap.mem_keys_set rest k k0 v
      simp only [GoMap.keys] at hmem ih
      simp only [GoMap.set, GoMap.keys, h0, if_false, List.map_cons, List.nodup_cons]
      refine ⟨?_, ih h.2⟩
      rw [hmem]
      rintro (h1 | h1)
      · exact h0 h1
      · exact h.1 h1

/-! ## The score map of `Service.Search` -/

theorem get_countIDs (IDs : List Int) (scores : GoMap Int Nat) (id : Int) :
    (countIDs scores IDs).get id 0 = scores.get id 0 + IDs.count id := by
  induction IDs generalizing scores with
  | nil => simp [countIDs]
  | cons ID rest ih =>
    have hstep : countIDs scores (ID :: rest)
        = countIDs (scores.set ID (scores.get ID 0 + 1)) rest := rfl
    rw [hstep, ih, GoMap.get_set]
    by_cases h : ID = id
    · subst h
      simp
      omega
    · simp [h, List.count_cons]

theorem mem_keys_countIDs (IDs : List Int) (scores : GoMap Int Nat) (id : Int) :
    id ∈ (countIDs scores IDs).keys ↔ id ∈ scores.keys ∨ id ∈ IDs := by
  induction IDs generalizing scores with
  | nil => simp [countIDs]
  | cons ID rest ih =>
    have hstep : countIDs scores (ID :: rest)
        = countIDs (scores.set ID (scores.get ID 0 + 1)) rest := rfl
    rw [hstep, ih, GoMap.mem_keys_set, List.mem_cons]
    tauto

theorem nodup_keys_countIDs (IDs : List Int) (scores : GoMap Int Nat)
    (h : scores.keys.Nodup) : (countIDs scores IDs).keys.Nodup := by
  induction IDs generalizing scores with
  | nil => simpa [countIDs] using h
  | cons ID rest ih =>
    have hstep : countIDs scores (ID :: rest)
        = countIDs (scores.set ID (scores.get ID 0 + 1)) rest := rfl
    rw [hstep]
    exact ih _ (GoMap.nodup_keys_set scores ID _ h)

/-- What a successful loop over the keywords leaves in the score map. -/
theorem collectScores_ok (db : Storager) (keywords : List String)
    (scores result : GoMap Int Nat) (h : collectScores db keywords scores = .ok result) :
    (∀ id, result.get id 0 = scores.get id 0 + (allHits db keywords).count id) ∧
    (∀ id, id ∈ result.keys ↔ id ∈ scores.keys ∨ id ∈ allHits db keywords) ∧
    (scores.keys.Nodup → result.keys.Nodup) ∧
    (∀ keyword ∈ keywords, ∃ IDs, db.Search keyword = .ok IDs) := by
  induction keywords generalizing scores with
  | nil =>
    simp only [collectScores, Except.ok.injEq] at h
    subst h
    simp [allHits]
  | cons keyword rest ih =>
    unfold collectScores at h
    split at h
    · exact absurd h (by simp)
    · rename_i IDs hs
      obtain ⟨h1, h2, h3, h4⟩ := ih _ h
      have hf : foundIDs db keyword = IDs := by simp [foundIDs, hs]
      refine ⟨?_, ?_, ?_, ?_⟩
      · intro id
        rw [h1, get_countIDs]
        simp [allHits, hf, List.count_append]
        omega
      · intro id
        rw [h2, mem_keys_countIDs]
        simp [allHits, hf]
        tauto
      · intro hn
        exact h3 (nodup_keys_countIDs IDs scores hn)
      · intro k hk
        rcases List.mem_cons.mp hk with rfl | hk
        · exact ⟨IDs, hs⟩
        · exact h4 k hk

/-- The loop over the keywords fails only with the error of a failed `Store.Search`. -/
theorem collectScores_error (db : Storager) (keywords : List String)
    (scores : GoMap Int Nat) (err : Err) (h : collectScores db keywords scores = .error err) :
    ∃ keyword ∈ keywords, db.Search keyword = .error err := by
  induction keywords generalizing scores with
  | nil => simp [collectScores] at h
  | cons keyword rest ih =>
    unfold collectScores at h
    split at h
    · rename_i e hs
      simp only [Except.error.injEq] at h
      subst h
      exact ⟨keyword, List.mem_cons_self _ _, hs⟩
    · obtain ⟨k, hk, hke⟩ := ih _ h
      exact ⟨k, List.mem_cons_of_mem _ hk, hke⟩

/-- The loop over the keywords succeeds when every `Store.Search` does. -/
theorem collectScores_total (db : Storager) (keywords : List String)
    (scores : GoMap Int Nat) (h : ∀ keyword ∈ keywords, ∃ IDs, db.Search keyword = .ok IDs) :
    ∃ result, collectScores db keywords scores = .ok result := by
  cases hc : collectScores db keywords scores with
  | ok result => exact ⟨result, rfl⟩
  | error err =>
    obtain ⟨k, hk, hke⟩ := collectScores_error db keywords scores err hc
    obtain ⟨IDs, hok⟩ := h k hk
    rw [hok] at hke
    exact absurd hke (by simp)

/-! ## The fetch loop of `Service.Search` -/

theorem fetchComics_ok (db : Storager) (ids : List Int) (acc result : List Comics)
    (h : fetchComics db ids acc = .ok result) :
    ∃ fetched, result = acc ++ fetched ∧
      List.Forall₂ (fun id comics => db.Get id = .ok comics) ids fetched := by
  induction ids generalizing acc with
  | nil =>
    simp only [fetchComics, Except.ok.injEq] at h
    exact ⟨[], by simp [h], List.Forall₂.nil⟩
  | cons ID rest ih =>
    unfold fetchComics at h
    split at h
    · exact absurd h (by simp)
    · rename_i comics hg
      obtain ⟨fetched, hres, hall⟩ := ih _ h
      exact ⟨comics :: fetched, by simp [hres], List.Forall₂.cons hg hall⟩

theorem fetchComics_error (db : Storager) (ids : List Int) (acc : List Comics) (err : Err)
    (h : fetchComics db ids acc = .error err) : ∃ id ∈ ids, db.Get id = .error err := by
  induction ids generalizing acc with
  | nil => simp [fetchComics] at h
  | cons ID rest ih =>
    unfold fetchComics at h
    split at h
    · rename_i e hg
      simp only [Except.error.injEq] at h
      subst h
      exact ⟨ID, List.mem_cons_self _ _, hg⟩
    · obtain ⟨id, hid, hide⟩ := ih _ h
      exact ⟨id, List.mem_cons_of_mem _ hid, hide⟩

theorem fetchComics_fails (db : Storager) (ids : List Int) (acc : List Comics)
    (h : ∃ id ∈ ids, ∃ err, db.Get id = .error err) :
    ∃ err, fetchComics db ids acc = .error err := by
  cases hf : fetchComics db ids acc with
  | error err => exact ⟨err, rfl⟩
  | ok result =>
    obtain ⟨fetched, _, hall⟩ := fetchComics_ok db ids acc result hf
    obtain ⟨id, hid, err, herr⟩ := h
    obtain ⟨i, hi, rfl⟩ := List.getElem_of_mem hid
    have hlen := hall.length_eq
    have := List.Forall₂.get hall hi (by omega)
    simp only [List.get_eq_getElem] at this
    rw [herr] at this
    exact absurd this (by simp)

/-! ## Limiting and ranking in `Service.Search` -/

theorem limitResults_of_nonneg (sorted : List Int) (limit : Int) (h : 0 ≤ limit) :
    limitResults sorted limit = some (sorted.take limit.toNat) := by
  unfold limitResults
  by_cases hlen : (sorted.length : Int) < limit
  · have h1 : sorted.length ≤ limit.toNat := by omega
    simp [hlen, List.take_of_length_le h1]
  · simp [hlen]
    omega

theorem limitResults_of_neg (sorted : List Int) (limit : Int) (h : limit < 0) :
    limitResults sorted limit = none := by
  unfold limitResults
  have hlen : ¬ (sorted.length : Int) < limit := by omega
  simp [hlen, h]

theorem strictWeak_scoreLess (scores : GoMap Int Nat) :
    StrictWeak (fun a b : Int =>
      decide (cmpCompare (scores.get b 0) (scores.get a 0) < 0)) where
  asymm := by
    intro a b
    simp only [cmpCompare, decide_eq_true_eq, decide_eq_false_iff_not]
    intro h
    split at h <;> split <;> omega
  negTrans := by
    intro a b c
    simp only [cmpCompare, decide_eq_false_iff_not]
    intro h1 h2
    split at h1 <;> split at h2 <;> split <;> omega

theorem sortedIDs_perm (rt : GoRuntime) (hrt : rt.Lawful) (scores : GoMap Int Nat) :
    (sortedIDs rt scores).Perm scores.keys :=
  (hrt.sort_perm _ _).trans (hrt.mapOrder_perm _)

theorem sortedIDs_sorted (rt : GoRuntime) (hrt : rt.Lawful) (scores : GoMap Int Nat) :
    (sortedIDs rt scores).Pairwise (fun a b => scores.get b 0 ≤ scores.get a 0) := by
  have h := hrt.sort_sorted _ (rt.mapOrder scores.keys) (strictWeak_scoreLess scores)
  refine List.Pairwise.imp ?_ h
  intro a b hab
  simp only [cmpCompare, decide_eq_false_iff_not] at hab
  split at hab
  · omega
  · split at hab <;> omega

theorem limitResults_some (sorted ids : List Int) (limit : Int)
    (h : limitResults sorted limit = some ids) : ∃ n : Nat, ids = sorted.take n := by
  by_cases hneg : limit < 0
  · rw [limitResults_of_neg sorted limit hneg] at h
    exact absurd h (by simp)
  · rw [limitResults_of_nonneg sorted limit (by omega)] at h
    simp only [Option.some.injEq] at h
    exact ⟨_, h.symm⟩

/-- The steps a successful `Search` has gone through. -/
theorem Search_ok (rt : GoRuntime) (words : Words) (db : Storager) (phrase : String)
    (limit : Int) (result : List Comics)
    (h : Search rt words db phrase limit = .ret (some result) none) :
    ∃ keywords scores sorted, words.Norm phrase = .ok keywords ∧
      collectScores db keywords [] = .ok scores ∧
      limitResults (sortedIDs rt scores) limit = some sorted ∧
      fetchComics db sorted [] = .ok result := by
  unfold Search at h
  split at h
  · exact absurd h (by simp)
  · rename_i keywords hn
    split at h
    · exact absurd h (by simp)
    · rename_i scores hc
      split at h
      · exact absurd h (by simp)
      · rename_i sorted hl
        split at h
        · exact absurd h (by simp)
        · rename_i res hf
          simp only [Outcome.ret.injEq, Option.some.injEq, and_true] at h
          subst h
          exact ⟨keywords, scores, sorted, hn, hc, hl, hf⟩

/-- C1. A successful `Service.Search` returns the comics `Store.Get(id)` of a list of ids
that is in non-increasing order of hit count, where the hit count of an id is the number
of its occurrences across the lists `Store.Search(k)` over the query keywords `k`; no id
outside the list has a larger hit count than an id inside it, no id is fetched twice and
every fetched id has at least one hit.  This holds for every limit, in particular for
every limit `>= 0`. -/
theorem Search_ranked_by_hit_count (rt : GoRuntime) (hrt : rt.Lawful) (words : Words)
    (db : Storager) (phrase : String) (limit : Int) (result : List Comics)
    (h : Search rt words db phrase limit = .ret (some result) none) :
    ∃ keywords ids, words.Norm phrase = .ok keywords ∧
      List.Forall₂ (fun id comics => db.Get id = .ok comics) ids result ∧
      ids.Pairwise (fun a b => hitCount db keywords b ≤ hitCount db keywords a) ∧
      (∀ a ∈ ids, ∀ b, b ∉ ids → hitCount db keywords b ≤ hitCount db keywords a) ∧
      ids.Nodup ∧ (∀ a ∈ ids, 0 < hitCount db keywords a) := by
  obtain ⟨keywords, scores, sorted, hn, hc, hl, hf⟩ := Search_ok rt words db phrase limit result h
  obtain ⟨hget, hkeys, hnodup, _⟩ := collectScores_ok db keywords [] scores hc
  obtain ⟨n, hn'⟩ := limitResults_some _ _ _ hl
  obtain ⟨fetched, hres, hall⟩ := fetchComics_ok db sorted [] result hf
  have hres' : result = fetched := by simpa using hres
  subst hres'
  have hhit : ∀ id, scores.get id 0 = hitCount db keywords id := by
    intro id
    rw [hget id]
    simp [hitCount, GoMap.get]
  have hsorted : (sortedIDs rt scores).Pairwise
      (fun a b => hitCount db keywords b ≤ hitCount db keywords a) := by
    refine List.Pairwise.imp ?_ (sortedIDs_sorted rt hrt scores)
    intro a b hab
    rw [← hhit a, ← hhit b]
    exact hab
  have hperm := sortedIDs_perm rt hrt scores
  have hmem : ∀ id, id ∈ sortedIDs rt scores ↔ 0 < hitCount db keywords id := by
    intro id
    rw [hperm.mem_iff, hkeys id]
    simp [hitCount, GoMap.keys, List.count_pos_iff]
  have hsplit : sortedIDs rt scores = sorted ++ (sortedIDs rt scores).drop n := by
    rw [hn', List.take_append_drop]
  refine ⟨keywords, sorted, hn, hall, ?_, ?_, ?_, ?_⟩
  · rw [hn']
    exact hsorted.sublist (List.take_sublist n _)
  · intro a ha b hb
    by_cases hbs : b ∈ sortedIDs rt scores
    · rw [hsplit] at hbs hsorted
      rcases List.mem_append.mp hbs with hb1 | hb2
      · exact absurd hb1 hb
      · exact (List.pairwise_append.mp hsorted).2.2 a ha b hb2
    · have : ¬ 0 < hitCount db keywords b := fun hpos => hbs ((hmem b).mpr hpos)
      omega
  · have hnd : (sortedIDs rt scores).Nodup := hperm.nodup_iff.mpr (hnodup (by simp [GoMap.keys]))
    rw [hn']
    exact hnd.sublist (List.take_sublist n _)
  · intro a ha
    apply (hmem a).mp
    rw [hn'] at ha
    exact List.mem_of_mem_take ha

/-- The unit test `TestService_Search_Success`: hit counts `1:1, 2:2, 3:1` and limit 2. -/
theorem Search_ranked_by_hit_count_witness :
    ∃ keywords ids, testWords.Norm "linux cpu" = .ok keywords ∧
      List.Forall₂ (fun id comics => testStore.Get id = .ok comics) ids
        [⟨2, "url2", []⟩, ⟨1, "url1", []⟩] ∧
      ids.Pairwise (fun a b => hitCount testStore keywords b ≤ hitCount testStore keywords a) ∧
      (∀ a ∈ ids, ∀ b, b ∉ ids →
        hitCount testStore keywords b ≤ hitCount testStore keywords a) ∧
      ids.Nodup ∧ (∀ a ∈ ids, 0 < hitCount testStore keywords a) :=
  Search_ranked_by_hit_count stableRuntime stableRuntime_lawful testWords testStore
    "linux cpu" 2 [⟨2, "url2", []⟩, ⟨1, "url1", []⟩] (by decide)

/-! ## The steps of `Initiator.GetIndexedComics` -/

theorem takeIDs_eq (limit : Int) (scores : List comicScore) (i : Int) (acc : List Int) :
    takeIDs limit scores i acc
      = acc ++ (scores.take (limit - i).toNat).map (fun cs => cs.id) := by
  induction scores generalizing i acc with
  | nil => simp [takeIDs]
  | cons cs rest ih =>
    unfold takeIDs
    by_cases hi : i ≥ limit
    · have h0 : (limit - i).toNat = 0 := by omega
      simp [hi, h0]
    · have h1 : (limit - i).toNat = (limit - (i + 1)).toNat + 1 := by omega
      rw [if_neg hi, ih, h1]
      simp

/-- The ids `GetIndexedComics` selects: the first `limit` of the ranking. -/
theorem takeIDs_zero (limit : Int) (scores : List comicScore) :
    takeIDs limit scores 0 [] = (scores.take limit.toNat).map (fun cs => cs.id) := by
  rw [takeIDs_eq]
  simp

/-- The four ways a call of `GetIndexedComics` can go: it returns before the ranking, it
panics in `make`, or it asks the store, which fails or answers. -/
theorem GetIndexedComics_cases (rt : GoRuntime) (indexedComics : GoMap String (List String))
    (db : Storager) (words : List String) (limit : Int) :
    ((words = [] ∨ scoreIndex rt indexedComics words = []) ∧
      GetIndexedComics rt indexedComics db words limit = ⟨.ret (some []) none, []⟩) ∨
    (words ≠ [] ∧ scoreIndex rt indexedComics words ≠ [] ∧
      (limit < 0 ∨ maxAlloc < 8 * limit) ∧
      GetIndexedComics rt indexedComics db words limit = ⟨.panic, []⟩) ∨
    (words ≠ [] ∧ scoreIndex rt indexedComics words ≠ [] ∧
      (0 ≤ limit ∧ 8 * limit ≤ maxAlloc) ∧
      ∃ ids, ids = ((rankScores rt (scoreIndex rt indexedComics words)).take
          limit.toNat).map (fun cs => cs.id) ∧
        ((∃ err, db.GetComicsByIDs ids = .error err ∧
            GetIndexedComics rt indexedComics db words limit
              = ⟨.ret none (some (.wrap "failed to get comics by ids" err)), [ids]⟩) ∨
         (∃ comics, db.GetComicsByIDs ids = .ok comics ∧
            GetIndexedComics rt indexedComics db words limit
              = ⟨.ret (some comics) none, [ids]⟩))) := by
  by_cases hw : words = []
  · left
    exact ⟨Or.inl hw, by simp [GetIndexedComics, hw]⟩
  · have hw' : ¬ words.length = 0 := by simpa using hw
    by_cases hs : scoreIndex rt indexedComics words = []
    · left
      exact ⟨Or.inr hs, by simp [GetIndexedComics, hs]⟩
    · have hs' : ¬ (scoreIndex rt indexedComics words).length = 0 := by simpa using hs
      by_cases hl : limit < 0 ∨ maxAlloc < 8 * limit
      · right; left
        exact ⟨hw, hs, hl, by simp [GetIndexedComics, hw', hs', makeslicePanics, hl]⟩
      · right; right
        refine ⟨hw, hs, by omega, _, rfl, ?_⟩
        rw [← takeIDs_zero]
        cases hq : db.GetComicsByIDs (takeIDs limit
            (rankScores rt (scoreIndex rt indexedComics words)) 0 []) with
        | error err =>
          left
          exact ⟨err, rfl, by simp [GetIndexedComics, hw', hs', makeslicePanics, hl, hq]⟩
        | ok comics =>
          right
          exact ⟨comics, rfl, by simp [GetIndexedComics, hw', hs', makeslicePanics, hl, hq]⟩

/-- A successful `IndexSearch` is a successful `GetIndexedComics` on the normalized
phrase. -/
theorem IndexSearch_ok (rt : GoRuntime) (words : Words)
    (indexedComics : GoMap String (List String)) (db : Storager) (phrase : String)
    (limit : Int) (result : List Comics)
    (h : (IndexSearch rt words indexedComics db phrase limit).out = .ret (some result) none) :
    ∃ ws, words.Norm phrase = .ok ws ∧
      (GetIndexedComics rt indexedComics db ws limit).out = .ret (some result) none := by
  unfold IndexSearch at h
  split at h
  · exact absurd h (by simp)
  · rename_i ws hn
    refine ⟨ws, hn, ?_⟩
    simp only at h
    split at h
    · exact absurd h (by simp)
    · exact absurd h (by simp)
    · rename_i comics hout
      simp only [Outcome.ret.injEq, and_true] at h
      rw [hout, h]

/-- C2. For every limit `>= 0`: a successful `Service.Search` returns at most `limit`
comics; every id list `Initiator.GetIndexedComics` hands to the store has at most `limit`
ids; and when `Store.GetComicsByIDs` returns at most one comic per requested id, a
successful `IndexSearch` returns at most `limit` comics. -/
theorem search_results_within_limit (rt : GoRuntime) (words : Words)
    (indexedComics : GoMap String (List String)) (db : Storager) (phrase : String)
    (limit : Int) (hlimit : 0 ≤ limit) :
    (∀ result, Search rt words db phrase limit = .ret (some result) none →
      (result.length : Int) ≤ limit) ∧
    (∀ ws, ∀ ids ∈ (GetIndexedComics rt indexedComics db ws limit).queries,
      (ids.length : Int) ≤ limit) ∧
    ((∀ ids comics, db.GetComicsByIDs ids = .ok comics → comics.length ≤ ids.length) →
      ∀ result,
        (IndexSearch rt words indexedComics db phrase limit).out = .ret (some result) none →
        (result.length : Int) ≤ limit) := by
  have hids : ∀ scores : List comicScore,
      (((scores.take limit.toNat).map (fun cs => cs.id)).length : Int) ≤ limit := by
    intro scores
    have := List.length_take_le limit.toNat scores
    simp only [List.length_map]
    omega
  refine ⟨?_, ?_, ?_⟩
  · intro result h
    obtain ⟨keywords, scores, sorted, _, _, hl, hf⟩ := Search_ok rt words db phrase limit result h
    obtain ⟨fetched, hres, hall⟩ := fetchComics_ok db sorted [] result hf
    rw [limitResults_of_nonneg _ _ hlimit] at hl
    simp only [Option.some.injEq] at hl
    have hlen := hall.length_eq
    have htake := List.length_take_le limit.toNat (sortedIDs rt scores)
    rw [hl] at htake
    have : result.length = fetched.length := by simp [hres]
    omega
  · intro ws ids hmem
    rcases GetIndexedComics_cases rt indexedComics db ws limit with
      ⟨_, h⟩ | ⟨_, _, _, h⟩ | ⟨_, _, _, ids', hids', h⟩
    · rw [h] at hmem
      simp at hmem
    · rw [h] at hmem
      simp at hmem
    · rcases h with ⟨_, _, h⟩ | ⟨_, _, h⟩ <;>
      · rw [h] at hmem
        simp only [List.mem_singleton] at hmem
        rw [hmem, hids']
        exact hids _
  · intro hstore result h
    obtain ⟨ws, _, hg⟩ := IndexSearch_ok rt words indexedComics db phrase limit result h
    rcases GetIndexedComics_cases rt indexedComics db ws limit with
      ⟨_, h'⟩ | ⟨_, _, _, h'⟩ | ⟨_, _, _, ids', hids', h'⟩
    · rw [h'] at hg
      simp only [Outcome.ret.injEq, Option.some.injEq, and_true] at hg
      subst hg
      simpa using hlimit
    · rw [h'] at hg
      exact absurd hg (by simp)
    · rcases h' with ⟨_, _, h'⟩ | ⟨comics, hq, h'⟩
      · rw [h'] at hg
        exact absurd hg (by simp)
      · rw [h'] at hg
        simp only [Outcome.ret.injEq, Option.some.injEq, and_true] at hg
        subst hg
        have h1 := hstore ids' comics hq
        have h2 := hids (rankScores rt (scoreIndex rt indexedComics ws))
        rw [← hids'] at h2
        omega

theorem search_results_within_limit_witness :
    (0 : Int) ≤ 1 ∧
    ((∀ result,
        Search stableRuntime testWords (DB.store testTable) "linux cpu" 1
          = .ret (some result) none → (result.length : Int) ≤ 1) ∧
     (∀ ws, ∀ ids ∈ (GetIndexedComics stableRuntime testIndex (DB.store testTable) ws 1).queries,
        (ids.length : Int) ≤ 1) ∧
     ((∀ ids comics, (DB.store testTable).GetComicsByIDs ids = .ok comics →
          comics.length ≤ ids.length) →
        ∀ result,
          (IndexSearch stableRuntime testWords testIndex (DB.store testTable) "linux cpu" 1).out
            = .ret (some result) none → (result.length : Int) ≤ 1)) :=
  ⟨by decide,
    search_results_within_limit stableRuntime testWords testIndex (DB.store testTable)
      "linux cpu" 1 (by decide)⟩

theorem fetchComics_total (db : Storager) (ids : List Int) (acc : List Comics)
    (h : ∀ id ∈ ids, ∃ comics, db.Get id = .ok comics) :
    ∃ result, fetchComics db ids acc = .ok result := by
  cases hf : fetchComics db ids acc with
  | ok result => exact ⟨result, rfl⟩
  | error err =>
    obtain ⟨id, hid, hide⟩ := fetchComics_error db ids acc err hf
    obtain ⟨comics, hok⟩ := h id hid
    rw [hok] at hide
    exact absurd hide (by simp)

/-- C3, counterexample. With limit 0 the search of `TestService_Search_Success` returns
the empty list, although the ids 1, 2 and 3 all have hits. -/
theorem Search_limit_zero_not_all :
    ¬ ReturnsAllHits testStore ["linux", "cpu"]
        (Search stableRuntime testWords testStore "linux cpu" 0) := by
  rintro ⟨result, h, ids, _, hmem, hall⟩
  have hrun : Search stableRuntime testWords testStore "linux cpu" 0
      = .ret (some []) none := by decide
  rw [hrun] at h
  simp only [Outcome.ret.injEq, Option.some.injEq, and_true] at h
  subst h
  have hids : ids = [] := by
    cases hall
    rfl
  have h2 : 0 < hitCount testStore ["linux", "cpu"] 2 := by decide
  have := (hmem 2).mpr h2
  rw [hids] at this
  exact absurd this (by simp)

/-- C3, amended. When `Normalize`, every `Store.Search` of a query keyword and `Store.Get`
of every id with a hit succeed: if limit is at least the number of ids with at least one
hit, `Service.Search` returns all the comics that have at least one hit, one per id; and
if limit is 0 it returns the empty list. -/
theorem Search_all_when_limit_covers (rt : GoRuntime) (hrt : rt.Lawful) (words : Words)
    (db : Storager) (phrase : String) (limit : Int) (keywords : List String)
    (hnorm : words.Norm phrase = .ok keywords)
    (hsearch : ∀ keyword ∈ keywords, ∃ IDs, db.Search keyword = .ok IDs)
    (hget : ∀ id, 0 < hitCount db keywords id → ∃ comics, db.Get id = .ok comics) :
    ((((allHits db keywords).dedup.length : Int) ≤ limit →
        ReturnsAllHits db keywords (Search rt words db phrase limit)) ∧
     (limit = 0 → Search rt words db phrase limit = .ret (some []) none)) := by
  obtain ⟨scores, hc⟩ := collectScores_total db keywords [] hsearch
  obtain ⟨hgetc, hkeys, hnodup, _⟩ := collectScores_ok db keywords [] scores hc
  have hperm := sortedIDs_perm rt hrt scores
  have hkn : scores.keys.Nodup := hnodup (by simp [GoMap.keys])
  have hmem : ∀ id, id ∈ sortedIDs rt scores ↔ 0 < hitCount db keywords id := by
    intro id
    rw [hperm.mem_iff, hkeys id]
    simp [hitCount, GoMap.keys, List.count_pos_iff]
  constructor
  · intro hlim
    have hkd : scores.keys.Perm (allHits db keywords).dedup := by
      rw [List.perm_ext_iff_of_nodup hkn (List.nodup_dedup _)]
      intro id
      rw [hkeys id]
      simp [GoMap.keys]
    have hlen : (sortedIDs rt scores).length ≤ limit.toNat := by
      rw [hperm.length_eq, hkd.length_eq]
      omega
    have hl : limitResults (sortedIDs rt scores) limit = some (sortedIDs rt scores) := by
      rw [limitResults_of_nonneg _ _ (by omega), List.take_of_length_le hlen]
    obtain ⟨result, hf⟩ := fetchComics_total db (sortedIDs rt scores) []
      (fun id hid => hget id ((hmem id).mp hid))
    obtain ⟨fetched, hres, hall⟩ := fetchComics_ok db _ [] result hf
    have hres' : result = fetched := by simpa using hres
    subst hres'
    refine ⟨result, by simp [Search, hnorm, hc, hl, hf], sortedIDs rt scores, ?_, hmem, hall⟩
    exact hperm.nodup_iff.mpr hkn
  · intro hzero
    subst hzero
    have hl : limitResults (sortedIDs rt scores) 0 = some [] := by
      rw [limitResults_of_nonneg _ _ (le_refl 0)]
      simp
    simp [Search, hnorm, hc, hl, fetchComics]

theorem Search_all_when_limit_covers_witness :
    ((((allHits testStore ["linux", "cpu"]).dedup.length : Int) ≤ 3 →
        ReturnsAllHits testStore ["linux", "cpu"]
          (Search stableRuntime testWords testStore "linux cpu" 3)) ∧
     ((3 : Int) = 0 →
        Search stableRuntime testWords testStore "linux cpu" 3 = .ret (some []) none)) :=
  Search_all_when_limit_covers stableRuntime stableRuntime_lawful testWords testStore
    "linux cpu" 3 ["linux", "cpu"] rfl
    (by
      intro keyword _
      simp only [testStore]
      split
      · exact ⟨_, rfl⟩
      · split <;> exact ⟨_, rfl⟩)
    (by
      intro id _
      simp only [testStore]
      split
      · exact ⟨_, rfl⟩
      · split
        · exact ⟨_, rfl⟩
        · split <;> exact ⟨_, rfl⟩)

/-- C4. For every limit `>= 0`, `Service.Search` does not panic; it returns an error if and
only if `Normalize` fails, or `Store.Search` fails for a query keyword, or `Store.Get` fails
for an id that survives the limit; and whenever it returns an error the comic list is nil
and the error is the one such a failing collaborator returned. -/
theorem Search_error_iff (rt : GoRuntime) (words : Words) (db : Storager) (phrase : String)
    (limit : Int) (hlimit : 0 ≤ limit) :
    Search rt words db phrase limit ≠ .panic ∧
    ((∃ comics err, Search rt words db phrase limit = .ret comics (some err)) ↔
      ∃ err, FailsWith rt words db phrase limit err) ∧
    (∀ comics err, Search rt words db phrase limit = .ret comics (some err) →
      comics = none ∧ FailsWith rt words db phrase limit err) := by
  cases hn : words.Norm phrase with
  | error e =>
    have hout : Search rt words db phrase limit = .ret none (some e) := by simp [Search, hn]
    rw [hout]
    refine ⟨by simp, ⟨fun _ => ⟨e, Or.inl hn⟩, fun _ => ⟨none, e, rfl⟩⟩, ?_⟩
    intro comics err h
    simp only [Outcome.ret.injEq, Option.some.injEq] at h
    obtain ⟨h1, h2⟩ := h
    subst h1 h2
    exact ⟨rfl, Or.inl hn⟩
  | ok keywords =>
    cases hc : collectScores db keywords [] with
    | error e =>
      have hout : Search rt words db phrase limit = .ret none (some e) := by
        simp [Search, hn, hc]
      obtain ⟨k, hk, hke⟩ := collectScores_error db keywords [] e hc
      have hfw : FailsWith rt words db phrase limit e :=
        Or.inr ⟨keywords, hn, Or.inl ⟨k, hk, hke⟩⟩
      rw [hout]
      refine ⟨by simp, ⟨fun _ => ⟨e, hfw⟩, fun _ => ⟨none, e, rfl⟩⟩, ?_⟩
      intro comics err h
      simp only [Outcome.ret.injEq, Option.some.injEq] at h
      obtain ⟨h1, h2⟩ := h
      subst h1 h2
      exact ⟨rfl, hfw⟩
    | ok scores =>
      have hl := limitResults_of_nonneg (sortedIDs rt scores) limit hlimit
      have hsurv : survivingIDs rt db keywords limit
          = (sortedIDs rt scores).take limit.toNat := by
        simp [survivingIDs, hc, hl]
      obtain ⟨_, _, _, hallok⟩ := collectScores_ok db keywords [] scores hc
      cases hf : fetchComics db ((sortedIDs rt scores).take limit.toNat) [] with
      | error e =>
        have hout : Search rt words db phrase limit = .ret none (some e) := by
          simp [Search, hn, hc, hl, hf]
        obtain ⟨id, hid, hide⟩ := fetchComics_error db _ [] e hf
        have hfw : FailsWith rt words db phrase limit e :=
          Or.inr ⟨keywords, hn, Or.inr ⟨id, by rw [hsurv]; exact hid, hide⟩⟩
        rw [hout]
        refine ⟨by simp, ⟨fun _ => ⟨e, hfw⟩, fun _ => ⟨none, e, rfl⟩⟩, ?_⟩
        intro comics err h
        simp only [Outcome.ret.injEq, Option.some.injEq] at h
        obtain ⟨h1, h2⟩ := h
        subst h1 h2
        exact ⟨rfl, hfw⟩
      | ok result =>
        have hout : Search rt words db phrase limit = .ret (some result) none := by
          simp [Search, hn, hc, hl, hf]
        rw [hout]
        refine ⟨by simp, ⟨fun h => ?_, fun h => ?_⟩, ?_⟩
        · obtain ⟨_, _, h⟩ := h
          simp at h
        · exfalso
          obtain ⟨err, hfw⟩ := h
          rcases hfw with h1 | ⟨kws, h1, h2⟩
          · rw [hn] at h1
            simp at h1
          · rw [hn] at h1
            simp only [Except.ok.injEq] at h1
            subst h1
            rcases h2 with ⟨k, hk, hke⟩ | ⟨id, hid, hide⟩
            · obtain ⟨IDs, hok⟩ := hallok k hk
              rw [hok] at hke
              simp at hke
            · rw [hsurv] at hid
              obtain ⟨e', he'⟩ := fetchComics_fails db _ [] ⟨id, hid, err, hide⟩
              rw [hf] at he'
              simp at he'
        · intro comics err h
          simp at h

/-- With a `Store.Get` that fails for id 2, which survives the limit 2, `Search` returns
nil and that error. -/
theorem Search_error_iff_witness :
    (0 : Int) ≤ 2 ∧ Search stableRuntime testWords failingGetStore "linux cpu" 2
        = .ret none (some (.msg "get error")) ∧
    (Search stableRuntime testWords failingGetStore "linux cpu" 2 ≠ .panic ∧
     ((∃ comics err,
        Search stableRuntime testWords failingGetStore "linux cpu" 2 = .ret comics (some err)) ↔
        ∃ err, FailsWith stableRuntime testWords failingGetStore "linux cpu" 2 err) ∧
     (∀ comics err,
        Search stableRuntime testWords failingGetStore "linux cpu" 2 = .ret comics (some err) →
        comics = none ∧ FailsWith stableRuntime testWords failingGetStore "linux cpu" 2 err)) :=
  ⟨by decide, by decide,
    Search_error_iff stableRuntime testWords failingGetStore "linux cpu" 2 (by decide)⟩

/-! ## Scoring in `Initiator.GetIndexedComics` -/

theorem get_foldl_set_true (words : List String) (m : GoMap String Bool) (word : String) :
    (words.foldl (fun wordsSet w => wordsSet.set w true) m).get word false
      = (m.get word false || decide (word ∈ words)) := by
  induction words generalizing m with
  | nil => simp
  | cons w rest ih =>
    rw [List.foldl_cons, ih, GoMap.get_set]
    by_cases h : w = word
    · subst h
      simp
    · have h' : ¬ word = w := fun e => h e.symm
      simp [h, h']

/-- `wordsSet[word]` is true exactly for the words of the query. -/
theorem get_makeWordsSet (words : List String) (word : String) :
    (makeWordsSet words).get word false = decide (word ∈ words) := by
  unfold makeWordsSet
  rw [get_foldl_set_true]
  simp [GoMap.get]

theorem countMatches_foldl (wordsSet : GoMap String Bool) (comicWords : List String)
    (init : Nat × Nat) :
    comicWords.foldl
      (fun counts word =>
        if wordsSet.get word false then (counts.1 + 1, counts.2 + 1) else counts) init
      = (init.1 + comicWords.countP (fun word => wordsSet.get word false),
         init.2 + comicWords.countP (fun word => wordsSet.get word false)) := by
  induction comicWords generalizing init with
  | nil => simp
  | cons w rest ih =>
    rw [List.foldl_cons, ih]
    by_cases h : wordsSet.get w false = true
    · simp [h, List.countP_cons_of_pos]
      omega
    · simp [h]

/-- Both counters of the loop over a comic's words hold the number of positions of the
stem list whose stem is a query word. -/
theorem countMatches_eq (words comicWords : List String) :
    countMatches (makeWordsSet words) comicWords
      = (comicWords.countP (fun word => decide (word ∈ words)),
         comicWords.countP (fun word => decide (word ∈ words))) := by
  unfold countMatches
  rw [countMatches_foldl]
  simp [get_makeWordsSet]

/-- What the loop body records for an index entry that is ranked. -/
theorem scoreComic_some (words : List String) (entry : String × List String)
    (cs : comicScore) (h : scoreComic (makeWordsSet words) words entry = some cs) :
    Atoi entry.1 = some cs.id ∧
    cs.matchedWords = entry.2.countP (fun word => decide (word ∈ words)) ∧
    cs.score = cs.matchedWords ∧ cs.totalWords = entry.2.length ∧
    cs.perfectMatch = decide (cs.matchedWords = words.length) ∧ 0 < cs.matchedWords := by
  unfold scoreComic at h
  rw [countMatches_eq] at h
  split at h
  · exact absurd h (by simp)
  · rename_i comicID ha
    simp only at h
    split at h
    · exact absurd h (by simp)
    · rename_i hpos
      simp only [Option.some.injEq] at h
      subst h
      exact ⟨ha, rfl, rfl, rfl, rfl, Nat.pos_of_ne_zero hpos⟩

/-- An index entry with a decimal key and at least one matching stem is ranked. -/
theorem scoreComic_of_match (words : List String) (entry : String × List String)
    (comicID : Int) (ha : Atoi entry.1 = some comicID)
    (hm : 0 < entry.2.countP (fun word => decide (word ∈ words))) :
    ∃ cs, scoreComic (makeWordsSet words) words entry = some cs ∧ cs.id = comicID := by
  have hne : ¬ entry.2.countP (fun word => decide (word ∈ words)) = 0 := by omega
  unfold scoreComic
  rw [countMatches_eq, ha]
  simp [hne]

theorem rankLess_iff (a b : comicScore) : rankLess a b = true ↔ keyBefore a b := by
  unfold rankLess keyBefore
  by_cases hp : a.perfectMatch = b.perfectMatch
  · by_cases hm : a.matchedWords = b.matchedWords
    · by_cases hs : a.score = b.score
      · simp [hp, hm, hs]
      · simp [hp, hm, hs]
    · simp [hp, hm]
  · have hp' : a.perfectMatch = !b.perfectMatch := by
      cases ha : a.perfectMatch <;> cases hb : b.perfectMatch <;> simp_all
    cases hb : b.perfectMatch <;> simp [hp', hb]

theorem strictWeak_rankLess : StrictWeak rankLess where
  asymm := by
    intro a b h
    rw [rankLess_iff] at h
    rw [Bool.eq_false_iff, Ne, rankLess_iff]
    unfold keyBefore at *
    intro h'
    cases ha : a.perfectMatch <;> cases hb : b.perfectMatch <;> simp_all <;> omega
  negTrans := by
    intro a b c h1 h2
    rw [Bool.eq_false_iff, Ne, rankLess_iff] at h1 h2 ⊢
    unfold keyBefore at *
    intro h'
    cases ha : a.perfectMatch <;> cases hb : b.perfectMatch <;>
      cases hc : c.perfectMatch <;> simp_all <;> omega

/-! ## Ranking in `Initiator.GetIndexedComics` -/

theorem mem_scoreIndex (rt : GoRuntime) (hrt : rt.Lawful)
    (indexedComics : GoMap String (List String)) (words : List String) (cs : comicScore) :
    cs ∈ scoreIndex rt indexedComics words ↔
      ∃ entry ∈ indexedComics, scoreComic (makeWordsSet words) words entry = some cs := by
  unfold scoreIndex
  rw [List.mem_filterMap]
  constructor
  · rintro ⟨entry, he, hs⟩
    exact ⟨entry, (hrt.mapOrder_perm indexedComics).mem_iff.mp he, hs⟩
  · rintro ⟨entry, he, hs⟩
    exact ⟨entry, (hrt.mapOrder_perm indexedComics).mem_iff.mpr he, hs⟩

/-- The comics that are ranked: those of the index entries with a decimal key and a match,
whatever the order in which the map is walked. -/
theorem scoreIndex_perm (rt : GoRuntime) (hrt : rt.Lawful)
    (indexedComics : GoMap String (List String)) (words : List String) :
    (scoreIndex rt indexedComics words).Perm
      (indexedComics.filterMap (scoreComic (makeWordsSet words) words)) :=
  (hrt.mapOrder_perm indexedComics).filterMap _

theorem rankScores_perm (rt : GoRuntime) (hrt : rt.Lawful) (scores : List comicScore) :
    (rankScores rt scores).Perm scores :=
  hrt.sort_perm _ _

theorem rankScores_sorted (rt : GoRuntime) (hrt : rt.Lawful) (scores : List comicScore) :
    (rankScores rt scores).Pairwise (fun a b => ¬ keyBefore b a) := by
  refine List.Pairwise.imp ?_ (hrt.sort_sorted rankLess scores strictWeak_rankLess)
  intro a b hab
  rw [← rankLess_iff, hab]
  simp

/-- In a sorted slice an element stands before every element it is less than. -/
theorem sorted_before {α : Type} (less : α → α → Bool) (hsw : StrictWeak less) (l : List α)
    (hl : l.Pairwise (fun x y => less y x = false)) (a b : α) (ha : a ∈ l) (hb : b ∈ l)
    (hab : less a b = true) : ∃ pre mid post, l = pre ++ a :: (mid ++ b :: post) := by
  obtain ⟨l1, l2, rfl⟩ := List.append_of_mem hb
  rcases List.mem_append.mp ha with h1 | h2
  · obtain ⟨pre, mid, rfl⟩ := List.append_of_mem h1
    exact ⟨pre, mid, l2, by simp⟩
  · exfalso
    have hp := (List.pairwise_append.mp hl).2.1
    rcases List.mem_cons.mp h2 with rfl | h3
    · have := hsw.asymm a a hab
      rw [hab] at this
      exact absurd this (by simp)
    · have := (List.pairwise_cons.mp hp).1 a h3
      rw [hab] at this
      exact absurd this (by simp)

theorem countP_all_present (words comicWords : List String) (hnd : comicWords.Nodup)
    (hall : ∀ word ∈ words, word ∈ comicWords) :
    comicWords.countP (fun word => decide (word ∈ words)) = words.dedup.length := by
  rw [List.countP_eq_length_filter]
  apply List.Perm.length_eq
  rw [List.perm_ext_iff_of_nodup (hnd.filter _) (List.nodup_dedup _)]
  intro w
  simp only [List.mem_filter, decide_eq_true_eq, List.mem_dedup]
  exact ⟨fun h => h.2, fun h => ⟨hall w h, h⟩⟩

theorem countP_one_missing (words comicWords : List String) (hnd : comicWords.Nodup)
    (missing : String) (hm : missing ∈ words) (hnot : missing ∉ comicWords) :
    comicWords.countP (fun word => decide (word ∈ words)) < words.dedup.length := by
  rw [List.countP_eq_length_filter]
  have hsub : comicWords.filter (fun word => decide (word ∈ words))
      ⊆ words.dedup.erase missing := by
    intro w hw
    simp only [List.mem_filter, decide_eq_true_eq] at hw
    rw [List.Nodup.mem_erase_iff (List.nodup_dedup _), List.mem_dedup]
    refine ⟨?_, hw.2⟩
    rintro rfl
    exact hnot hw.1
  have hle := ((hnd.filter _).subperm hsub).length_le
  have hmd : missing ∈ words.dedup := List.mem_dedup.mpr hm
  rw [List.length_erase_of_mem hmd] at hle
  have hpos : 0 < words.dedup.length := List.length_pos_of_mem hmd
  omega

/-- C5, counterexample. In `repeatIndex` comic 1 holds all the query words and comic 2
lacks `cpu`, yet with limit 1 the id selected is 2: its two occurrences of `linux` make
`matched` equal to the number of query words. -/
theorem repeated_stem_beats_perfect_match :
    (∀ word ∈ ["linux", "cpu"], word ∈ ["linux", "cpu", "linux"]) ∧
    "cpu" ∉ ["linux", "linux"] ∧
    rankScores stableRuntime (scoreIndex stableRuntime repeatIndex ["linux", "cpu"])
      = [⟨2, 2, 2, 2, true⟩, ⟨1, 3, 3, 3, false⟩] ∧
    (GetIndexedComics stableRuntime repeatIndex (DB.store []) ["linux", "cpu"] 1).queries
      = [[2]] := by
  decide

/-- A stem list that holds every query word has at least as many matching positions as
the query has distinct words. -/
theorem countP_all_present_ge (words comicWords : List String)
    (hall : ∀ word ∈ words, word ∈ comicWords) :
    words.dedup.length ≤ comicWords.countP (fun word => decide (word ∈ words)) := by
  rw [List.countP_eq_length_filter]
  have hsub : words.dedup ⊆ comicWords.filter (fun word => decide (word ∈ words)) := by
    intro w hw
    have hw' : w ∈ words := List.mem_dedup.mp hw
    simp only [List.mem_filter, decide_eq_true_eq]
    exact ⟨hall w hw', hw'⟩
  exact ((List.nodup_dedup words).subperm hsub).length_le

/-- C5, amended. Take two index entries, the first holding all the query keywords, the
second without a repeated stem, lacking one of the keywords but matching another. Then
both are ranked and the first stands before the second in the ranking, for every limit
`>= 1`; every id list handed to the store is the first `limit` ids of that ranking, and
one such list is handed over whenever `make` accepts the limit as a capacity (above that
the call panics in `make`, after the ranking, and hands over nothing). -/
theorem perfect_match_ranked_first (rt : GoRuntime) (hrt : rt.Lawful)
    (indexedComics : GoMap String (List String)) (db : Storager) (words : List String)
    (limit : Int) (hlimit : 1 ≤ limit)
    (full part : String × List String) (idFull idPart : Int)
    (hfull : full ∈ indexedComics) (hpart : part ∈ indexedComics)
    (hidFull : Atoi full.1 = some idFull) (hidPart : Atoi part.1 = some idPart)
    (hndPart : part.2.Nodup)
    (hall : ∀ word ∈ words, word ∈ full.2)
    (hlacks : ∃ word ∈ words, word ∉ part.2) (hsome : ∃ word ∈ words, word ∈ part.2) :
    ∃ csFull csPart pre mid post,
      scoreComic (makeWordsSet words) words full = some csFull ∧ csFull.id = idFull ∧
      scoreComic (makeWordsSet words) words part = some csPart ∧ csPart.id = idPart ∧
      rankScores rt (scoreIndex rt indexedComics words)
        = pre ++ csFull :: (mid ++ csPart :: post) ∧
      (∀ ids ∈ (GetIndexedComics rt indexedComics db words limit).queries,
        ids = ((pre ++ csFull :: (mid ++ csPart :: post)).take limit.toNat).map
            (fun cs => cs.id)) ∧
      (8 * limit ≤ maxAlloc →
        (GetIndexedComics rt indexedComics db words limit).queries
          = [((pre ++ csFull :: (mid ++ csPart :: post)).take limit.toNat).map
              (fun cs => cs.id)]) ∧
      (maxAlloc < 8 * limit →
        GetIndexedComics rt indexedComics db words limit = ⟨.panic, []⟩) := by
  obtain ⟨missing, hmw, hmiss⟩ := hlacks
  obtain ⟨shared, hsw, hsp⟩ := hsome
  have hwords : words ≠ [] := List.ne_nil_of_mem hmw
  have hcF := countP_all_present_ge words full.2 hall
  have hcP := countP_one_missing words part.2 hndPart missing hmw hmiss
  have hposP : 0 < part.2.countP (fun word => decide (word ∈ words)) :=
    List.countP_pos_iff.mpr ⟨shared, hsp, by simpa using hsw⟩
  have hdl : 0 < words.dedup.length := List.length_pos_of_mem (List.mem_dedup.mpr hmw)
  have hdle : words.dedup.length ≤ words.length := (List.dedup_sublist words).length_le
  obtain ⟨csF, hsF, hiF⟩ := scoreComic_of_match words full idFull hidFull (by omega)
  obtain ⟨csP, hsP, hiP⟩ := scoreComic_of_match words part idPart hidPart hposP
  obtain ⟨_, hmF, _, _, hpF, _⟩ := scoreComic_some words full csF hsF
  obtain ⟨_, hmP, _, _, hpP, _⟩ := scoreComic_some words part csP hsP
  have hless : rankLess csF csP = true := by
    rw [rankLess_iff]
    unfold keyBefore
    have hPf : csP.perfectMatch = false := by
      rw [hpP]
      simp only [decide_eq_false_iff_not]
      omega
    cases hF : csF.perfectMatch
    · right
      exact ⟨by rw [hPf], Or.inl (by omega)⟩
    · left
      exact ⟨rfl, hPf⟩
  have hinF : csF ∈ rankScores rt (scoreIndex rt indexedComics words) :=
    (rankScores_perm rt hrt _).mem_iff.mpr
      ((mem_scoreIndex rt hrt indexedComics words csF).mpr ⟨full, hfull, hsF⟩)
  have hinP : csP ∈ rankScores rt (scoreIndex rt indexedComics words) :=
    (rankScores_perm rt hrt _).mem_iff.mpr
      ((mem_scoreIndex rt hrt indexedComics words csP).mpr ⟨part, hpart, hsP⟩)
  obtain ⟨pre, mid, post, hsplit⟩ := sorted_before rankLess strictWeak_rankLess _
    (hrt.sort_sorted rankLess _ strictWeak_rankLess) csF csP hinF hinP hless
  have hsplit' : rankScores rt (scoreIndex rt indexedComics words)
      = pre ++ csF :: (mid ++ csP :: post) := hsplit
  refine ⟨csF, csP, pre, mid, post, hsF, hiF, hsP, hiP, hsplit', ?_⟩
  have hne : scoreIndex rt indexedComics words ≠ [] := by
    intro hnil
    have := (mem_scoreIndex rt hrt indexedComics words csF).mpr ⟨full, hfull, hsF⟩
    rw [hnil] at this
    exact absurd this (by simp)
  rcases GetIndexedComics_cases rt indexedComics db words limit with
    ⟨h1 | h1, _⟩ | ⟨_, _, hbad, h⟩ | ⟨_, _, hok, ids, hids, h⟩
  · exact absurd h1 hwords
  · exact absurd h1 hne
  · rw [h]
    refine ⟨by simp, fun hfits => ?_, fun _ => rfl⟩
    omega
  · subst hids
    have hq : (GetIndexedComics rt indexedComics db words limit).queries
        = [((pre ++ csF :: (mid ++ csP :: post)).take limit.toNat).map (fun cs => cs.id)] := by
      rcases h with ⟨_, _, h⟩ | ⟨_, _, h⟩ <;> rw [h, hsplit']
    refine ⟨?_, fun _ => hq, fun hbig => ?_⟩
    · intro ids hmem
      rw [hq] at hmem
      simpa using hmem
    · omega

/-- The unit test `TestInitiator_GetIndexedComics_ScoringAndLimit`: index
`1:[linux,cpu], 2:[linux]`, keywords `[linux, cpu]`, limit 1, which selects comic 1
whichever way the map is walked. -/
theorem perfect_match_ranked_first_witness :
    (GetIndexedComics reverseRuntime testIndex (DB.store testTable) ["linux", "cpu"] 1).queries
      = [[1]] ∧
    ∃ csFull csPart pre mid post,
      scoreComic (makeWordsSet ["linux", "cpu"]) ["linux", "cpu"] ("1", ["linux", "cpu"])
        = some csFull ∧ csFull.id = 1 ∧
      scoreComic (makeWordsSet ["linux", "cpu"]) ["linux", "cpu"] ("2", ["linux"])
        = some csPart ∧ csPart.id = 2 ∧
      rankScores reverseRuntime (scoreIndex reverseRuntime testIndex ["linux", "cpu"])
        = pre ++ csFull :: (mid ++ csPart :: post) ∧
      (∀ ids ∈ (GetIndexedComics reverseRuntime testIndex (DB.store testTable)
          ["linux", "cpu"] 1).queries,
        ids = ((pre ++ csFull :: (mid ++ csPart :: post)).take (1 : Int).toNat).map
            (fun cs => cs.id)) ∧
      (8 * (1 : Int) ≤ maxAlloc →
        (GetIndexedComics reverseRuntime testIndex (DB.store testTable)
          ["linux", "cpu"] 1).queries
          = [((pre ++ csFull :: (mid ++ csPart :: post)).take (1 : Int).toNat).map
              (fun cs => cs.id)]) ∧
      (maxAlloc < 8 * (1 : Int) →
        GetIndexedComics reverseRuntime testIndex (DB.store testTable) ["linux", "cpu"] 1
          = ⟨.panic, []⟩) :=
  ⟨by decide,
    perfect_match_ranked_first reverseRuntime reverseRuntime_lawful testIndex
      (DB.store testTable) ["linux", "cpu"] 1 (by decide) ("1", ["linux", "cpu"])
      ("2", ["linux"]) 1 2 (by decide) (by decide) (by decide) (by decide) (by decide)
      (by decide) ⟨"cpu", by decide, by decide⟩ ⟨"linux", by decide, by decide⟩⟩

/-- A comic that holds all the query keywords, with a repeated stem, still stands before a
comic without repeats that lacks one: in the index `1:[linux,cpu,linux], 2:[linux]` comic 1
is not a perfect match for `[linux, cpu]` (its matched count is 3), and it is ranked first
by its matched count. -/
theorem perfect_match_with_repeat_ranked_first :
    rankScores stableRuntime
        (scoreIndex stableRuntime [("1", ["linux", "cpu", "linux"]), ("2", ["linux"])]
          ["linux", "cpu"])
      = [⟨1, 3, 3, 3, false⟩, ⟨2, 1, 1, 1, false⟩] := by
  decide

/-- The loop body of `GetIndexedComics` records for an index entry what the specification
describes for it. -/
theorem scoreComic_eq_rankedComic (words : List String) (entry : String × List String) :
    scoreComic (makeWordsSet words) words entry = rankedComic words entry := by
  unfold scoreComic rankedComic
  rw [countMatches_eq]

/-- Within the capacities `make` accepts, `GetIndexedComics` does what C6 says. For a
non-empty keyword list and a limit from 0 to `2^45`, let `m` be the number of index
entries with a decimal id and `matched > 0`. The ranking is a permutation of the records
of exactly these `m` comics, sorted by the lexicographic key (perfect descending, matched
descending, score descending, total ascending). If `m = 0` the store is not asked;
otherwise it is asked once, for the ids of the first `limit` comics of the ranking, which
are `min(limit, m)` ids. -/
theorem GetIndexedComics_hands_ranked_ids (rt : GoRuntime) (hrt : rt.Lawful)
    (indexedComics : GoMap String (List String)) (db : Storager) (words : List String)
    (limit : Int) (hwords : words ≠ []) (hlimit : 0 ≤ limit) (hfits : 8 * limit ≤ maxAlloc) :
    ∃ ranked : List comicScore,
      ranked.Perm (indexedComics.filterMap (rankedComic words)) ∧
      ranked.Pairwise (fun a b => ¬ keyBefore b a) ∧
      (ranked = [] →
        GetIndexedComics rt indexedComics db words limit = ⟨.ret (some []) none, []⟩) ∧
      (ranked ≠ [] → ∃ ids,
        (GetIndexedComics rt indexedComics db words limit).queries = [ids] ∧
        ids = (ranked.take limit.toNat).map (fun cs => cs.id) ∧
        ids.length = min limit.toNat ranked.length) := by
  have hfun : scoreComic (makeWordsSet words) words = rankedComic words :=
    funext (scoreComic_eq_rankedComic words)
  have hperm : (rankScores rt (scoreIndex rt indexedComics words)).Perm
      (indexedComics.filterMap (rankedComic words)) := by
    rw [← hfun]
    exact (rankScores_perm rt hrt _).trans (scoreIndex_perm rt hrt indexedComics words)
  have hnil : rankScores rt (scoreIndex rt indexedComics words) = [] ↔
      scoreIndex rt indexedComics words = [] := by
    constructor
    · intro h
      exact List.Perm.eq_nil (h ▸ (rankScores_perm rt hrt _).symm)
    · intro h
      exact List.Perm.eq_nil (h ▸ rankScores_perm rt hrt (scoreIndex rt indexedComics words))
  refine ⟨rankScores rt (scoreIndex rt indexedComics words), hperm,
    rankScores_sorted rt hrt _, ?_, ?_⟩
  · intro hr
    rcases GetIndexedComics_cases rt indexedComics db words limit with
      ⟨_, h⟩ | ⟨_, hne, _, _⟩ | ⟨_, hne, _, _⟩
    · exact h
    · exact absurd (hnil.mp hr) hne
    · exact absurd (hnil.mp hr) hne
  · intro hr
    rcases GetIndexedComics_cases rt indexedComics db words limit with
      ⟨h1 | h1, _⟩ | ⟨_, _, hbad, _⟩ | ⟨_, _, _, ids, hids, h⟩
    · exact absurd h1 hwords
    · exact absurd (hnil.mpr h1) hr
    · omega
    · refine ⟨ids, ?_, ?_, ?_⟩
      · rcases h with ⟨_, _, h⟩ | ⟨_, _, h⟩ <;> rw [h]
      · rw [hids]
      · rw [hids, List.length_map, List.length_take]

/-- C6, the code at the failing input. In `rankIndex` both comics have `matched > 0` for
the keywords `[linux, cpu]`: comic 1 matches once, comic 2 twice and perfectly. With limit
2 the store is handed the ids `[2, 1]`, the first `min(limit, m)` of the ranking. With the
limit `9223372036854775807`, the largest `int`, `min(limit, m)` is 2 again, yet
`GetIndexedComics` panics in `make([]int, 0, limit)` and hands the store nothing, and so
does `IndexSearch`, which passes its limit on unchecked. -/
theorem GetIndexedComics_huge_limit_panics :
    rankIndex.map (fun entry => entry.2.countP (fun stem => decide (stem ∈ ["linux", "cpu"])))
      = [1, 2] ∧
    (GetIndexedComics stableRuntime rankIndex (DB.store rankTable) ["linux", "cpu"] 2).queries
      = [[2, 1]] ∧
    (0 : Int) ≤ 9223372036854775807 ∧
    GetIndexedComics stableRuntime rankIndex (DB.store rankTable) ["linux", "cpu"]
        9223372036854775807
      = ⟨.panic, []⟩ ∧
    IndexSearch stableRuntime testWords rankIndex (DB.store rankTable) "linux cpu"
        9223372036854775807
      = ⟨.panic, []⟩ := by
  decide

/-- C7, counterexample. For the stem list `[linux, linux]` and the query `[linux]` the
matched count recorded is 2, while one distinct stem of the comic is a query word. -/
theorem repeated_stem_counted_twice :
    scoreComic (makeWordsSet ["linux"]) ["linux"] ("1", ["linux", "linux"])
      = some ⟨1, 2, 2, 2, false⟩ ∧
    distinctMatched ["linux"] ["linux", "linux"] = 1 := by
  decide

/-- C7, amended. The matched count the loop computes for a comic is the number of
positions of its stem list whose stem is a query keyword, so a stem is counted as often as
it occurs; this is the count recorded for the comic when it is ranked; and for a stem list
without repeated stems it is the number of distinct stems of the comic that belong to the
query keyword set. -/
theorem matched_counts_occurrences (words comicWords : List String) :
    (countMatches (makeWordsSet words) comicWords).1
      = comicWords.countP (fun word => decide (word ∈ words)) ∧
    (∀ key cs, scoreComic (makeWordsSet words) words (key, comicWords) = some cs →
      cs.matchedWords = (countMatches (makeWordsSet words) comicWords).1) ∧
    (comicWords.Nodup →
      (countMatches (makeWordsSet words) comicWords).1 = distinctMatched words comicWords) := by
  have hc : (countMatches (makeWordsSet words) comicWords).1
      = comicWords.countP (fun word => decide (word ∈ words)) := by
    rw [countMatches_eq]
  refine ⟨hc, ?_, ?_⟩
  · intro key cs h
    rw [hc]
    exact (scoreComic_some words (key, comicWords) cs h).2.1
  · intro hnd
    rw [hc, distinctMatched, (hnd.filter _).dedup, List.countP_eq_length_filter]

theorem matched_counts_occurrences_witness :
    (countMatches (makeWordsSet ["cpu", "gpu"]) ["linux", "cpu"]).1
      = ["linux", "cpu"].countP (fun word => decide (word ∈ ["cpu", "gpu"])) ∧
    (∀ key cs,
      scoreComic (makeWordsSet ["cpu", "gpu"]) ["cpu", "gpu"] (key, ["linux", "cpu"]) = some cs →
      cs.matchedWords = (countMatches (makeWordsSet ["cpu", "gpu"]) ["linux", "cpu"]).1) ∧
    (["linux", "cpu"].Nodup →
      (countMatches (makeWordsSet ["cpu", "gpu"]) ["linux", "cpu"]).1
        = distinctMatched ["cpu", "gpu"] ["linux", "cpu"]) :=
  matched_counts_occurrences ["cpu", "gpu"] ["linux", "cpu"]

/-- C8, the code at the failing input. The ranking of `rankIndex` for `[linux, cpu]` is
comic 2, then comic 1, and that is the id list handed to the store; the table yields its
rows in key order and `GetIndexedComics` returns them as they come: comic 1, then
comic 2. -/
theorem GetIndexedComics_returns_store_order :
    GetIndexedComics stableRuntime rankIndex (DB.store rankTable) ["linux", "cpu"] 2
      = ⟨.ret (some [⟨1, "u1", ["linux"]⟩, ⟨2, "u2", ["linux", "cpu"]⟩]) none, [[2, 1]]⟩ := by
  decide

/-- C9, counterexample. Both comics of `testIndex` match the query `[linux, cpu]`, yet
with limit 0 the store is asked for no id and the call returns the empty list. -/
theorem GetIndexedComics_limit_zero_not_all :
    (scoreIndex stableRuntime testIndex ["linux", "cpu"]).map (fun cs => cs.id) = [1, 2] ∧
    GetIndexedComics stableRuntime testIndex (DB.store testTable) ["linux", "cpu"] 0
      = ⟨.ret (some []) none, [[]]⟩ := by
  decide

/-- No comic is ranked exactly when no index entry with a decimal id holds a query
keyword. -/
theorem scoreIndex_eq_nil_iff (rt : GoRuntime) (hrt : rt.Lawful)
    (indexedComics : GoMap String (List String)) (words : List String) :
    scoreIndex rt indexedComics words = [] ↔
      ∀ entry ∈ indexedComics, ∀ comicID, Atoi entry.1 = some comicID →
        ∀ stem ∈ entry.2, stem ∉ words := by
  constructor
  · intro hnil entry hentry comicID hid stem hstem hin
    have hpos : 0 < entry.2.countP (fun word => decide (word ∈ words)) :=
      List.countP_pos_iff.mpr ⟨stem, hstem, by simpa using hin⟩
    obtain ⟨cs, hs, _⟩ := scoreComic_of_match words entry comicID hid hpos
    have := (mem_scoreIndex rt hrt indexedComics words cs).mpr ⟨entry, hentry, hs⟩
    rw [hnil] at this
    exact absurd this (by simp)
  · intro hnone
    rw [List.eq_nil_iff_forall_not_mem]
    intro cs hcs
    obtain ⟨entry, hentry, hs⟩ := (mem_scoreIndex rt hrt indexedComics words cs).mp hcs
    obtain ⟨hid, hm, _, _, _, hpos⟩ := scoreComic_some words entry cs hs
    rw [hm] at hpos
    obtain ⟨stem, hstem, hin⟩ := List.countP_pos_iff.mp hpos
    exact hnone entry hentry cs.id hid stem hstem (by simpa using hin)

/-- C9, amended. Called with limit 0 and a non-empty keyword list, `GetIndexedComics` does
not panic and selects no id: every id list it hands to the store is empty. When no comic
matches (no index entry with a decimal id holds a query keyword) it returns the empty list
and no error without asking the store; otherwise it asks the store once, for no id. With a
store that returns no comic when asked for no id, every successful call returns the empty
list. -/
theorem GetIndexedComics_limit_zero (rt : GoRuntime)
    (indexedComics : GoMap String (List String)) (db : Storager) (words : List String)
    (hwords : words ≠ [])
    (hstore : ∀ comics, db.GetComicsByIDs [] = .ok comics → comics = []) :
    (GetIndexedComics rt indexedComics db words 0).out ≠ .panic ∧
    (∀ ids ∈ (GetIndexedComics rt indexedComics db words 0).queries, ids = []) ∧
    (scoreIndex rt indexedComics words = [] →
      GetIndexedComics rt indexedComics db words 0 = ⟨.ret (some []) none, []⟩) ∧
    (scoreIndex rt indexedComics words ≠ [] →
      (GetIndexedComics rt indexedComics db words 0).queries = [[]]) ∧
    (rt.Lawful →
      ((∀ entry ∈ indexedComics, ∀ comicID, Atoi entry.1 = some comicID →
          ∀ stem ∈ entry.2, stem ∉ words) →
        GetIndexedComics rt indexedComics db words 0 = ⟨.ret (some []) none, []⟩) ∧
      ((∃ entry ∈ indexedComics, (∃ comicID, Atoi entry.1 = some comicID) ∧
          ∃ stem ∈ entry.2, stem ∈ words) →
        (GetIndexedComics rt indexedComics db words 0).queries = [[]])) ∧
    (∀ result, (GetIndexedComics rt indexedComics db words 0).out = .ret (some result) none →
      result = []) := by
  have hspec : rt.Lawful →
      ((∀ entry ∈ indexedComics, ∀ comicID, Atoi entry.1 = some comicID →
          ∀ stem ∈ entry.2, stem ∉ words) → scoreIndex rt indexedComics words = []) ∧
      ((∃ entry ∈ indexedComics, (∃ comicID, Atoi entry.1 = some comicID) ∧
          ∃ stem ∈ entry.2, stem ∈ words) → scoreIndex rt indexedComics words ≠ []) := by
    intro hrt
    refine ⟨(scoreIndex_eq_nil_iff rt hrt indexedComics words).mpr, ?_⟩
    rintro ⟨entry, hentry, ⟨comicID, hid⟩, stem, hstem, hin⟩ hnil
    exact (scoreIndex_eq_nil_iff rt hrt indexedComics words).mp hnil entry hentry comicID hid
      stem hstem hin
  rcases GetIndexedComics_cases rt indexedComics db words 0 with
    ⟨h1 | h1, h⟩ | ⟨_, _, hbad, _⟩ | ⟨_, hne, _, ids, hids, h⟩
  · exact absurd h1 hwords
  · rw [h]
    refine ⟨by simp, by simp, fun _ => rfl, fun hne => absurd h1 hne,
      fun hrt => ⟨fun _ => rfl, fun hex => absurd h1 ((hspec hrt).2 hex)⟩, ?_⟩
    intro result hr
    simp only [Outcome.ret.injEq, Option.some.injEq, and_true] at hr
    exact hr.symm
  · unfold maxAlloc at hbad
    omega
  · have hnil : ids = [] := by simpa using hids
    subst hnil
    have hq : (GetIndexedComics rt indexedComics db words 0).queries = [[]] := by
      rcases h with ⟨_, _, h⟩ | ⟨_, _, h⟩ <;> rw [h]
    refine ⟨?_, ?_, fun hs => absurd hs hne, fun _ => hq,
      fun hrt => ⟨fun hno => absurd ((hspec hrt).1 hno) hne, fun _ => hq⟩, ?_⟩
    · rcases h with ⟨_, _, h⟩ | ⟨_, _, h⟩ <;> rw [h] <;> simp
    · intro ids hmem
      rw [hq] at hmem
      simpa using hmem
    · intro result hr
      rcases h with ⟨err, _, h⟩ | ⟨comics, hq', h⟩
      · rw [h] at hr
        simp at hr
      · rw [h] at hr
        simp only [Outcome.ret.injEq, Option.some.injEq, and_true] at hr
        subst hr
        exact hstore comics hq'

/-- The index of the unit test with the keyword `linux`, which both comics hold, and with
the keyword `gpu`, which none holds: limit 0 asks the store for no id in the first case and
does not ask it in the second. -/
theorem GetIndexedComics_limit_zero_witness :
    (GetIndexedComics stableRuntime testIndex (DB.store testTable) ["linux"] 0
        = ⟨.ret (some []) none, [[]]⟩ ∧
      GetIndexedComics stableRuntime testIndex (DB.store testTable) ["gpu"] 0
        = ⟨.ret (some []) none, []⟩) ∧
    ((GetIndexedComics stableRuntime testIndex (DB.store testTable) ["linux"] 0).out ≠ .panic ∧
    (∀ ids ∈ (GetIndexedComics stableRuntime testIndex (DB.store testTable)
        ["linux"] 0).queries, ids = []) ∧
    (scoreIndex stableRuntime testIndex ["linux"] = [] →
      GetIndexedComics stableRuntime testIndex (DB.store testTable) ["linux"] 0
        = ⟨.ret (some []) none, []⟩) ∧
    (scoreIndex stableRuntime testIndex ["linux"] ≠ [] →
      (GetIndexedComics stableRuntime testIndex (DB.store testTable) ["linux"] 0).queries
        = [[]]) ∧
    (stableRuntime.Lawful →
      ((∀ entry ∈ testIndex, ∀ comicID, Atoi entry.1 = some comicID →
          ∀ stem ∈ entry.2, stem ∉ ["linux"]) →
        GetIndexedComics stableRuntime testIndex (DB.store testTable) ["linux"] 0
          = ⟨.ret (some []) none, []⟩) ∧
      ((∃ entry ∈ testIndex, (∃ comicID, Atoi entry.1 = some comicID) ∧
          ∃ stem ∈ entry.2, stem ∈ ["linux"]) →
        (GetIndexedComics stableRuntime testIndex (DB.store testTable) ["linux"] 0).queries
          = [[]])) ∧
    (∀ result,
      (GetIndexedComics stableRuntime testIndex (DB.store testTable) ["linux"] 0).out
        = .ret (some result) none → result = [])) :=
  ⟨by decide,
    GetIndexedComics_limit_zero stableRuntime testIndex (DB.store testTable) ["linux"]
      (by decide)
      (by
        intro comics h
        simp only [DB.store, DB.GetComicsByIDs, Except.ok.injEq] at h
        subst h
        simp)⟩

/-- C10. Called with an empty (or nil) keyword list, `GetIndexedComics` returns an empty
comic list and no error without asking the store, for every index and every limit; hence
`IndexSearch` returns an empty list, no error, whenever `Normalize(phrase)` is empty. -/
theorem empty_keywords_empty_result (rt : GoRuntime) (words : Words)
    (indexedComics : GoMap String (List String)) (db : Storager) (phrase : String)
    (limit : Int) :
    GetIndexedComics rt indexedComics db [] limit = ⟨.ret (some []) none, []⟩ ∧
    (words.Norm phrase = .ok [] →
      IndexSearch rt words indexedComics db phrase limit = ⟨.ret (some []) none, []⟩) := by
  have hg : GetIndexedComics rt indexedComics db [] limit = ⟨.ret (some []) none, []⟩ := by
    simp [GetIndexedComics]
  refine ⟨hg, ?_⟩
  intro hn
  simp [IndexSearch, hn, hg]

/-- The unit test `TestInitiator_GetIndexedComics_EmptyWords`, and `IndexSearch` on a phrase
without keywords, with a negative limit. -/
theorem empty_keywords_empty_result_witness :
    GetIndexedComics stableRuntime testIndex (DB.store testTable) [] (-1)
      = ⟨.ret (some []) none, []⟩ ∧
    (emptyWords.Norm "the of" = .ok [] →
      IndexSearch stableRuntime emptyWords testIndex (DB.store testTable) "the of" (-1)
        = ⟨.ret (some []) none, []⟩) :=
  empty_keywords_empty_result stableRuntime emptyWords testIndex (DB.store testTable)
    "the of" (-1)

/-! ## Decimal keys of the index -/

theorem digitChar_spec (d : Nat) (h : d < 10) :
    ('0' ≤ digitChar d ∧ digitChar d ≤ '9') ∧ (digitChar d).toNat - '0'.toNat = d := by
  interval_cases d <;> decide

theorem atoiDigits_append (digits : List Char) (ch : Char) (n : Nat) :
    atoiDigits (digits ++ [ch]) n
      = (atoiDigits digits n).bind (fun v =>
          if '0' ≤ ch ∧ ch ≤ '9' then some (v * 10 + (ch.toNat - '0'.toNat)) else none) := by
  induction digits generalizing n with
  | nil =>
    simp only [List.nil_append, atoiDigits]
    split <;> simp
  | cons c rest ih =>
    simp only [List.cons_append, atoiDigits]
    split
    · exact ih _
    · simp

/-- Reading back the digits `strconv.Itoa` writes gives the number. -/
theorem atoiDigits_itoaDigits (fuel n : Nat) (h : n < fuel) :
    atoiDigits (itoaDigits fuel n) 0 = some n := by
  induction fuel generalizing n with
  | zero => omega
  | succ fuel ih =>
    unfold itoaDigits
    split
    · rename_i hlt
      obtain ⟨hd, hv⟩ := digitChar_spec n hlt
      unfold atoiDigits
      rw [if_pos hd, hv]
      simp [atoiDigits]
    · rename_i hge
      have hmod : n % 10 < 10 := Nat.mod_lt _ (by decide)
      obtain ⟨hd, hv⟩ := digitChar_spec (n % 10) hmod
      rw [atoiDigits_append, ih (n / 10) (by omega), Option.some_bind, if_pos hd, hv]
      congr 1
      omega

/-- Distinct ids have distinct decimal keys. -/
theorem Itoa_injective (i j : Int) (h : Itoa i = Itoa j) : i = j := by
  have hdata := congrArg String.data h
  cases i with
  | ofNat n =>
    cases j with
    | ofNat m =>
      simp only [Itoa] at hdata
      have h1 := atoiDigits_itoaDigits (n + 1) n (by omega)
      rw [hdata, atoiDigits_itoaDigits (m + 1) m (by omega)] at h1
      simp only [Option.some.injEq] at h1
      rw [h1]
    | negSucc m =>
      simp only [Itoa] at hdata
      have h1 := atoiDigits_itoaDigits (n + 1) n (by omega)
      rw [hdata] at h1
      simp [atoiDigits] at h1
  | negSucc n =>
    cases j with
    | ofNat m =>
      simp only [Itoa] at hdata
      have h1 := atoiDigits_itoaDigits (m + 1) m (by omega)
      rw [← hdata] at h1
      simp [atoiDigits] at h1
    | negSucc m =>
      simp only [Itoa, List.cons.injEq, true_and] at hdata
      have h1 := atoiDigits_itoaDigits (n + 2) (n + 1) (by omega)
      rw [hdata, atoiDigits_itoaDigits (m + 2) (m + 1) (by omega)] at h1
      simp only [Option.some.injEq, Nat.add_right_cancel_iff] at h1
      rw [h1]

/-! ## The index after `IndexComics` -/

theorem GoMap.keys_set_of_not_mem {κ ν : Type} [DecidableEq κ] (m : GoMap κ ν) (k : κ) (v : ν)
    (h : k ∉ m.keys) : (m.set k v).keys = m.keys ++ [k] := by
  induction m with
  | nil => simp [GoMap.set, GoMap.keys]
  | cons e rest ih =>
    obtain ⟨k0, v0⟩ := e
    simp only [GoMap.keys, List.map_cons, List.mem_cons, not_or] at h
    have h0 : ¬ k0 = k := fun e => h.1 e.symm
    simp only [GoMap.keys] at ih
    simp [GoMap.set, GoMap.keys, h0, ih h.2]

theorem indexAll_append (indexedComics : GoMap String (List String))
    (first second : List Comics) :
    indexAll indexedComics (first ++ second) = indexAll (indexAll indexedComics first) second := by
  simp [indexAll, List.foldl_append]

/-- Comics with other ids leave the entry of a key alone. -/
theorem get_indexAll_of_ne (comics : List Comics) (indexedComics : GoMap String (List String))
    (key : String) (h : ∀ comic ∈ comics, Itoa comic.ID ≠ key) :
    (indexAll indexedComics comics).get key [] = indexedComics.get key [] := by
  induction comics generalizing indexedComics with
  | nil => rfl
  | cons c rest ih =>
    have hstep : indexAll indexedComics (c :: rest)
        = indexAll (indexedComics.set (Itoa c.ID) c.Words) rest := rfl
    rw [hstep, ih _ (fun d hd => h d (List.mem_cons_of_mem _ hd)), GoMap.get_set]
    simp [h c (List.mem_cons_self _ _)]

theorem mem_keys_indexAll (comics : List Comics) (indexedComics : GoMap String (List String))
    (key : String) :
    key ∈ (indexAll indexedComics comics).keys ↔
      key ∈ indexedComics.keys ∨ ∃ comic ∈ comics, Itoa comic.ID = key := by
  induction comics generalizing indexedComics with
  | nil => simp [indexAll]
  | cons c rest ih =>
    have hstep : indexAll indexedComics (c :: rest)
        = indexAll (indexedComics.set (Itoa c.ID) c.Words) rest := rfl
    rw [hstep, ih, GoMap.mem_keys_set]
    simp only [List.mem_cons, exists_eq_or_imp]
    constructor
    · rintro ((h | h) | h)
      · exact Or.inr (Or.inl h.symm)
      · exact Or.inl h
      · exact Or.inr (Or.inr h)
    · rintro (h | h | h)
      · exact Or.inl (Or.inr h)
      · exact Or.inl (Or.inl h.symm)
      · exact Or.inr h

/-- Comics whose keys are new and pairwise distinct are appended to the index in order. -/
theorem keys_indexAll_of_new (comics : List Comics) (indexedComics : GoMap String (List String))
    (hnew : ∀ comic ∈ comics, Itoa comic.ID ∉ indexedComics.keys)
    (hnodup : (comics.map (fun comic => comic.ID)).Nodup) :
    (indexAll indexedComics comics).keys
      = indexedComics.keys ++ comics.map (fun comic => Itoa comic.ID) := by
  induction comics generalizing indexedComics with
  | nil => simp [indexAll]
  | cons c rest ih =>
    have hstep : indexAll indexedComics (c :: rest)
        = indexAll (indexedComics.set (Itoa c.ID) c.Words) rest := rfl
    simp only [List.map_cons, List.nodup_cons, List.mem_map, not_exists, not_and] at hnodup
    have hk := GoMap.keys_set_of_not_mem indexedComics (Itoa c.ID) c.Words
      (hnew c (List.mem_cons_self _ _))
    rw [hstep, ih _ ?_ hnodup.2, hk]
    · simp
    · intro d hd
      rw [hk, List.mem_append, List.mem_singleton]
      rintro (h | h)
      · exact hnew d (List.mem_cons_of_mem _ hd) h
      · exact hnodup.1 d hd (Itoa_injective _ _ h)

/-- C11. If `Store.GetAllComics` fails, `Initiator.IndexComics` returns that error and the
index is exactly what it was before the call. -/
theorem IndexComics_error_keeps_index (indexedComics : GoMap String (List String))
    (db : Storager) (err : Err) (h : db.GetAllComics = .error err) :
    IndexComics indexedComics db = (indexedComics, some err) := by
  simp [IndexComics, h]

theorem IndexComics_error_keeps_index_witness :
    IndexComics staleIndex failingAllStore = (staleIndex, some (.msg "db is down")) :=
  IndexComics_error_keeps_index staleIndex failingAllStore (.msg "db is down") rfl

/-- C12. When `Store.GetAllComics` returns a comic list, `Initiator.IndexComics` returns no
error and afterwards the index has the decimal id of every returned comic as a key; the
key of a comic that is the last one of its id in the list holds that comic's word list;
and for a list of comics with pairwise distinct ids applied to an empty index the keys
are the decimal ids of the list, in order, so the index has exactly as many entries as
the list. -/
theorem IndexComics_builds_index (indexedComics : GoMap String (List String)) (db : Storager)
    (comics : List Comics) (h : db.GetAllComics = .ok comics) :
    (IndexComics indexedComics db).2 = none ∧
    (∀ comic ∈ comics, Itoa comic.ID ∈ (IndexComics indexedComics db).1.keys) ∧
    (∀ pre comic post, comics = pre ++ comic :: post →
      (∀ later ∈ post, later.ID ≠ comic.ID) →
      (IndexComics indexedComics db).1.get (Itoa comic.ID) [] = comic.Words) ∧
    ((comics.map (fun comic => comic.ID)).Nodup →
      (IndexComics [] db).1.keys = comics.map (fun comic => Itoa comic.ID) ∧
      (IndexComics [] db).1.length = comics.length) := by
  have hrun : ∀ index : GoMap String (List String),
      IndexComics index db = (indexAll index comics, none) := by
    intro index
    simp [IndexComics, h]
  rw [hrun indexedComics, hrun []]
  refine ⟨rfl, ?_, ?_, ?_⟩
  · intro comic hc
    exact (mem_keys_indexAll comics indexedComics _).mpr (Or.inr ⟨comic, hc, rfl⟩)
  · intro pre comic post hsplit hlast
    subst hsplit
    have hstep : indexAll indexedComics (pre ++ comic :: post)
        = indexAll ((indexAll indexedComics pre).set (Itoa comic.ID) comic.Words) post := by
      rw [indexAll_append]
      rfl
    simp only [hstep]
    rw [get_indexAll_of_ne post _ _
      (fun later hl heq => hlast later hl (Itoa_injective _ _ heq)), GoMap.get_set]
    simp
  · intro hnodup
    have hkeys := keys_indexAll_of_new comics [] (by simp [GoMap.keys]) hnodup
    simp only [GoMap.keys, List.map_nil, List.nil_append] at hkeys
    refine ⟨hkeys, ?_⟩
    have hlen := congrArg List.length hkeys
    simpa using hlen

/-- The unit test `TestInitiator_IndexComics_BuildsIndex`. -/
theorem IndexComics_builds_index_witness :
    (IndexComics [] (DB.store buildTable)).2 = none ∧
    (∀ comic ∈ buildTable, Itoa comic.ID ∈ (IndexComics [] (DB.store buildTable)).1.keys) ∧
    (∀ pre comic post, buildTable = pre ++ comic :: post →
      (∀ later ∈ post, later.ID ≠ comic.ID) →
      (IndexComics [] (DB.store buildTable)).1.get (Itoa comic.ID) [] = comic.Words) ∧
    ((buildTable.map (fun comic => comic.ID)).Nodup →
      (IndexComics [] (DB.store buildTable)).1.keys
        = buildTable.map (fun comic => Itoa comic.ID) ∧
      (IndexComics [] (DB.store buildTable)).1.length = buildTable.length) :=
  IndexComics_builds_index [] (DB.store buildTable) buildTable rfl

/-- C13, the code at the failing input. The index holds comic 5, the table holds only the
comics 1 and 2; after a successful `IndexComics` the index still has the entry of comic 5,
next to the two new ones. -/
theorem IndexComics_keeps_stale_entry :
    (DB.store buildTable).GetAllComics = .ok buildTable ∧
    IndexComics staleIndex (DB.store buildTable)
      = ([("5", ["linux"]), ("1", ["a", "b"]), ("2", ["b", "c"])], none) :=
  ⟨rfl, by decide⟩

/-- C14. For every index state `Initiator.ClearIndex` returns no error and leaves the
index empty; and on the index it leaves, `GetIndexedComics` returns an empty list and no
error for every keyword list and every limit, without asking the store. -/
theorem ClearIndex_empties_index (rt : GoRuntime) (hrt : rt.Lawful)
    (indexedComics : GoMap String (List String)) (db : Storager) (words : List String)
    (limit : Int) :
    ClearIndex indexedComics = ([], none) ∧
    GetIndexedComics rt (ClearIndex indexedComics).1 db words limit
      = ⟨.ret (some []) none, []⟩ := by
  refine ⟨rfl, ?_⟩
  have hwalk : rt.mapOrder ([] : GoMap String (List String)) = [] :=
    List.Perm.eq_nil (hrt.mapOrder_perm _)
  have hscores : scoreIndex rt (ClearIndex indexedComics).1 words = [] := by
    simp [scoreIndex, ClearIndex, hwalk]
  rcases GetIndexedComics_cases rt (ClearIndex indexedComics).1 db words limit with
    ⟨_, h⟩ | ⟨_, hne, _, _⟩ | ⟨_, hne, _, _⟩
  · exact h
  · exact absurd hscores hne
  · exact absurd hscores hne

/-- The unit test `TestInitiator_ClearIndex`, followed by a search with a negative limit. -/
theorem ClearIndex_empties_index_witness :
    ClearIndex [("1", ["a"])] = ([], none) ∧
    GetIndexedComics reverseRuntime (ClearIndex [("1", ["a"])]).1 (DB.store buildTable) ["a"] (-1)
      = ⟨.ret (some []) none, []⟩ :=
  ClearIndex_empties_index reverseRuntime reverseRuntime_lawful [("1", ["a"])]
    (DB.store buildTable) ["a"] (-1)

/-! ## The update service's gate -/

/-- C15. When the exclusive-run gate is already held, `Update` returns at once with
`ErrAlreadyExists` (`ALREADY_RUNNING`), whatever the synchronization would do, and leaves
the service as it was; and `Status` is `RUNNING` exactly when the in-progress flag is set
and `IDLE` exactly when it is not. -/
theorem Update_fails_when_gate_held (s : UpdateService) (sync : UpdateService → Option Err) :
    (s.lock = true → s.Update sync = (s, some Update.ErrAlreadyExists)) ∧
    (s.Status = .StatusRunning ↔ s.inProgress = true) ∧
    (s.Status = .StatusIdle ↔ s.inProgress = false) := by
  refine ⟨?_, ?_, ?_⟩
  · intro hheld
    simp [UpdateService.Update, UpdateService.tryAcquire, hheld]
  · cases h : s.inProgress <;> simp [UpdateService.Status, h]
  · cases h : s.inProgress <;> simp [UpdateService.Status, h]

/-- The unit tests `TestService_Update_LockAlreadyHeld` and `TestService_Status`. -/
theorem Update_fails_when_gate_held_witness :
    ((⟨true, false⟩ : UpdateService).lock = true →
      (⟨true, false⟩ : UpdateService).Update (fun _ => none)
        = (⟨true, false⟩, some Update.ErrAlreadyExists)) ∧
    ((⟨true, false⟩ : UpdateService).Status = .StatusRunning ↔
      (⟨true, false⟩ : UpdateService).inProgress = true) ∧
    ((⟨true, false⟩ : UpdateService).Status = .StatusIdle ↔
      (⟨true, false⟩ : UpdateService).inProgress = false) :=
  Update_fails_when_gate_held ⟨true, false⟩ (fun _ => none)

/-! ## The `Auth` middleware -/

/-- C16. The handler returned by `Auth` calls the wrapped handler if and only if the
`Authorization` header starts with `"Token "`, the rest of it is not empty once white space
is trimmed, and `Verify` of the trimmed rest returns no error; then the response is the
wrapped handler's. In every other case the wrapped handler is not called and the response
is `http.Error(w, "unauthorized", 401)`, whatever error the verifier returned. -/
theorem Auth_calls_next_iff (next : Response) (verifier : String → Option Err)
    (authHeader : String) :
    ((Auth next verifier authHeader).nextCalled = true ↔
      (stringsHasPrefix authHeader "Token " = true ∧
       stringsTrimSpace (sliceFrom authHeader 6) ≠ "" ∧
       verifier (stringsTrimSpace (sliceFrom authHeader 6)) = none)) ∧
    ((Auth next verifier authHeader).nextCalled = true →
      (Auth next verifier authHeader).response = next) ∧
    ((Auth next verifier authHeader).nextCalled = false →
      (Auth next verifier authHeader).response = .httpError "unauthorized" 401 ∧
      (Auth next verifier authHeader).response.status = 401) := by
  have hlen : "Token ".length = 6 := by decide
  unfold Auth
  rw [hlen]
  by_cases hp : stringsHasPrefix authHeader "Token " = true
  · have hne : authHeader ≠ "" := by
      rintro rfl
      exact absurd hp (by decide)
    by_cases ht : stringsTrimSpace (sliceFrom authHeader 6) = ""
    · simp [hp, hne, ht, StatusUnauthorized, Response.status]
    · cases hv : verifier (stringsTrimSpace (sliceFrom authHeader 6)) with
      | none => simp [hp, hne, ht, hv]
      | some err => simp [hp, hne, ht, hv, StatusUnauthorized, Response.status]
  · simp [hp, StatusUnauthorized, Response.status]

/-- The unit test `TestAuth_Success`. -/
theorem Auth_calls_next_iff_witness :
    ((Auth .empty (fakeVerifier none) "Token token").nextCalled = true ↔
      (stringsHasPrefix "Token token" "Token " = true ∧
       stringsTrimSpace (sliceFrom "Token token" 6) ≠ "" ∧
       fakeVerifier none (stringsTrimSpace (sliceFrom "Token token" 6)) = none)) ∧
    ((Auth .empty (fakeVerifier none) "Token token").nextCalled = true →
      (Auth .empty (fakeVerifier none) "Token token").response = .empty) ∧
    ((Auth .empty (fakeVerifier none) "Token token").nextCalled = false →
      (Auth .empty (fakeVerifier none) "Token token").response
        = .httpError "unauthorized" 401 ∧
      (Auth .empty (fakeVerifier none) "Token token").response.status = 401) :=
  Auth_calls_next_iff .empty (fakeVerifier none) "Token token"

/-! ## The `Concurrency` middleware -/

/-- Every step keeps the channel within its capacity and holding one value for each
request that is inside `next` or on its way out. -/
theorem Concurrency_step_invariant (limit : Nat) (s s' : ConcurrencyState)
    (event : ConcurrencyEvent) (response : Option Response)
    (hstep : Concurrency limit s event = some (s', response))
    (hinv : s.semaphore = s.inNext + s.leaving ∧ s.semaphore ≤ limit) :
    s'.semaphore = s'.inNext + s'.leaving ∧ s'.semaphore ≤ limit := by
  obtain ⟨h1, h2⟩ := hinv
  cases event with
  | arrive =>
    simp only [Concurrency] at hstep
    split at hstep
    · simp only [Option.some.injEq, Prod.mk.injEq] at hstep
      obtain ⟨hs, _⟩ := hstep
      subst hs
      exact ⟨by show s.semaphore + 1 = s.inNext + 1 + s.leaving; omega,
        by show s.semaphore + 1 ≤ limit; omega⟩
    · simp only [Option.some.injEq, Prod.mk.injEq] at hstep
      obtain ⟨hs, _⟩ := hstep
      subst hs
      exact ⟨h1, h2⟩
  | nextReturns =>
    simp only [Concurrency] at hstep
    split at hstep
    · simp only [Option.some.injEq, Prod.mk.injEq] at hstep
      obtain ⟨hs, _⟩ := hstep
      subst hs
      exact ⟨by show s.semaphore = s.inNext - 1 + (s.leaving + 1); omega,
        by show s.semaphore ≤ limit; omega⟩
    · exact absurd hstep (by simp)
  | receive =>
    simp only [Concurrency] at hstep
    split at hstep
    · simp only [Option.some.injEq, Prod.mk.injEq] at hstep
      obtain ⟨hs, _⟩ := hstep
      subst hs
      exact ⟨by show s.semaphore - 1 = s.inNext + (s.leaving - 1); omega,
        by show s.semaphore - 1 ≤ limit; omega⟩
    · exact absurd hstep (by simp)

theorem runConcurrency_invariant (limit : Nat) (events : List ConcurrencyEvent)
    (s s' : ConcurrencyState) (hrun : runConcurrency limit s events = some s')
    (hinv : s.semaphore = s.inNext + s.leaving ∧ s.semaphore ≤ limit) :
    s'.semaphore = s'.inNext + s'.leaving ∧ s'.semaphore ≤ limit := by
  induction events generalizing s with
  | nil =>
    simp only [runConcurrency, Option.some.injEq] at hrun
    subst hrun
    exact hinv
  | cons event rest ih =>
    unfold runConcurrency at hrun
    split at hrun
    · exact absurd hrun (by simp)
    · rename_i next response hstep
      exact ih next hrun (Concurrency_step_invariant limit s next event response hstep hinv)

/-- C17. In every state the handler returned by `Concurrency(next, N)` can reach, at most
`N` requests are inside `next`; a request that arrives while `N` requests are inside
`next` is answered 503 on the spot and the state does not change, so `next` is not
entered; and a request that is back from `next` can always take its value out of the
channel, which frees exactly one slot and leaves the requests inside `next` alone. This
holds for every `N`, in particular for every `N >= 1`. -/
theorem Concurrency_admits_at_most_limit (limit : Nat) (events : List ConcurrencyEvent)
    (s : ConcurrencyState) (hreach : runConcurrency limit .init events = some s) :
    s.inNext ≤ limit ∧
    (s.inNext = limit →
      Concurrency limit s .arrive
        = some (s, some (.httpError "Service Unavailable" 503))) ∧
    (s.inNext < limit → s.leaving = 0 →
      ∃ s', Concurrency limit s .arrive = some (s', none) ∧ s'.inNext = s.inNext + 1) ∧
    (0 < s.leaving →
      ∃ s', Concurrency limit s .receive = some (s', none) ∧
        s'.semaphore + 1 = s.semaphore ∧ s'.leaving + 1 = s.leaving ∧
        s'.inNext = s.inNext) := by
  obtain ⟨h1, h2⟩ := runConcurrency_invariant limit events .init s hreach
    (by simp [ConcurrencyState.init])
  refine ⟨by omega, ?_, ?_, ?_⟩
  · intro hfull
    have hnot : ¬ s.semaphore < limit := by omega
    simp [Concurrency, hnot, StatusServiceUnavailable]
  · intro hroom hnone
    have hlt : s.semaphore < limit := by omega
    exact ⟨{ s with semaphore := s.semaphore + 1, inNext := s.inNext + 1 },
      by simp only [Concurrency, hlt, if_true], rfl⟩
  · intro hleaving
    have hboth : 0 < s.leaving ∧ 0 < s.semaphore := ⟨hleaving, by omega⟩
    refine ⟨{ s with semaphore := s.semaphore - 1, leaving := s.leaving - 1 },
      by simp only [Concurrency, hboth, and_self, if_true], ?_, ?_, rfl⟩
    · show s.semaphore - 1 + 1 = s.semaphore
      omega
    · show s.leaving - 1 + 1 = s.leaving
      omega

/-- The unit test `TestConcurrency_LimitOne`: with cap 1, one request is inside `next`
when the second arrives. -/
theorem Concurrency_admits_at_most_limit_witness :
    (⟨1, 1, 0⟩ : ConcurrencyState).inNext ≤ 1 ∧
    ((⟨1, 1, 0⟩ : ConcurrencyState).inNext = 1 →
      Concurrency 1 ⟨1, 1, 0⟩ .arrive
        = some (⟨1, 1, 0⟩, some (.httpError "Service Unavailable" 503))) ∧
    ((⟨1, 1, 0⟩ : ConcurrencyState).inNext < 1 → (⟨1, 1, 0⟩ : ConcurrencyState).leaving = 0 →
      ∃ s', Concurrency 1 ⟨1, 1, 0⟩ .arrive = some (s', none) ∧
        s'.inNext = (⟨1, 1, 0⟩ : ConcurrencyState).inNext + 1) ∧
    (0 < (⟨1, 1, 0⟩ : ConcurrencyState).leaving →
      ∃ s', Concurrency 1 ⟨1, 1, 0⟩ .receive = some (s', none) ∧
        s'.semaphore + 1 = (⟨1, 1, 0⟩ : ConcurrencyState).semaphore ∧
        s'.leaving + 1 = (⟨1, 1, 0⟩ : ConcurrencyState).leaving ∧
        s'.inNext = (⟨1, 1, 0⟩ : ConcurrencyState).inNext) :=
  Concurrency_admits_at_most_limit 1 [.arrive] ⟨1, 1, 0⟩ (by decide)

/-! ## The search and update handlers -/

/-- What `readLimit` accepts: an empty value reads as 0, any other value must be accepted
by `strconv.Atoi` and not be negative. -/
theorem readLimit_eq_some (limitStr : String) (limit : Int) :
    readLimit limitStr = some limit ↔
      (limitStr = "" ∧ limit = 0) ∨
      (limitStr ≠ "" ∧ Atoi limitStr = some limit ∧ 0 ≤ limit) := by
  unfold readLimit
  by_cases he : limitStr = ""
  · subst he
    simp [eq_comm]
  · simp only [ne_eq, he, not_false_eq_true, if_true, false_and, true_and, false_or]
    cases ha : Atoi limitStr with
    | none => simp
    | some n =>
      by_cases hn : n < 0
      · simp only [hn, if_true, Option.some.injEq]
        constructor
        · intro h
          exact absurd h (by simp)
        · rintro ⟨rfl, h⟩
          omega
      · simp only [hn, if_false, Option.some.injEq]
        constructor
        · rintro rfl
          exact ⟨rfl, by omega⟩
        · rintro ⟨h, _⟩
          exact h

theorem readLimit_eq_none (limitStr : String) :
    readLimit limitStr = none ↔
      limitStr ≠ "" ∧ (Atoi limitStr = none ∨ ∃ n, Atoi limitStr = some n ∧ n < 0) := by
  unfold readLimit
  by_cases he : limitStr = ""
  · subst he
    simp
  · simp only [ne_eq, he, not_false_eq_true, if_true, true_and]
    cases ha : Atoi limitStr with
    | none => simp
    | some n =>
      by_cases hn : n < 0
      · simp [hn]
      · simp [hn]

/-- A request that fails the checks of a search handler is answered 400 and the backend
is not called. -/
theorem serveSearch_rejects (search : String → Int → Except Err (List Api.Comics))
    (query : Query)
    (hbad : (query.Get "limit" ≠ "" ∧
        (Atoi (query.Get "limit") = none ∨ ∃ n, Atoi (query.Get "limit") = some n ∧ n < 0)) ∨
      query.Get "phrase" = "") :
    (serveSearch search query).response.status = 400 ∧ (serveSearch search query).calls = [] := by
  unfold serveSearch
  cases hr : readLimit (query.Get "limit") with
  | none => simp [Response.status, StatusBadRequest]
  | some limit =>
    rcases hbad with hl | hp
    · rw [(readLimit_eq_none _).mpr hl] at hr
      exact absurd hr (by simp)
    · simp [hp, Response.status, StatusBadRequest]

/-- A request that passes the checks of a search handler reaches the backend once, with
its phrase and the limit read. -/
theorem serveSearch_calls (search : String → Int → Except Err (List Api.Comics))
    (query : Query) (limit : Int) (hlimit : readLimit (query.Get "limit") = some limit)
    (hphrase : query.Get "phrase" ≠ "") :
    (serveSearch search query).calls = [(query.Get "phrase", limit)] := by
  unfold serveSearch
  rw [hlimit]
  simp only [hphrase, if_false]
  split
  · split <;> rfl
  · rfl

/-- The answer of a search handler to a request that passes its checks. -/
theorem serveSearch_answers (search : String → Int → Except Err (List Api.Comics))
    (query : Query) (limit : Int) (hlimit : readLimit (query.Get "limit") = some limit)
    (hphrase : query.Get "phrase" ≠ "") :
    (∀ err, search (query.Get "phrase") limit = .error err →
      errorsIs err Api.ErrNotFound = true →
      (serveSearch search query).response = .httpError "no comics found" 404) ∧
    (∀ err, search (query.Get "phrase") limit = .error err →
      errorsIs err Api.ErrNotFound = false →
      (serveSearch search query).response = .httpError err.Error 500) ∧
    (∀ comics, search (query.Get "phrase") limit = .ok comics →
      (serveSearch search query).response
        = .json { Comics := comics.map (fun c => { ID := c.ID, URL := c.URL }),
                  Total := comics.length }) := by
  unfold serveSearch
  rw [hlimit]
  simp only [hphrase, if_false]
  refine ⟨?_, ?_, ?_⟩
  · intro err he hnf
    simp [he, hnf, StatusNotFound]
  · intro err he hnf
    simp [he, hnf, StatusInternalServerError]
  · intro comics hc
    simp [hc]

/-- C18, counterexample. In `GET /api/search?limit=&phrase=linux` the parameter `limit` is
present and its value, the empty string, is not a decimal integer; yet the backend is
called, with limit 0, and the answer is 200. In
`GET /api/search?limit=9223372036854775808&phrase=linux` the value is a non-negative
decimal integer, yet the answer is 400 and the backend is not called. -/
theorem present_limit_not_checked_as_claimed :
    Atoi "" = none ∧
    NewSearchHandler (fakeSearcher (.ok [⟨1, "u1"⟩])) [("limit", ""), ("phrase", "linux")]
      = ⟨.json ⟨[⟨1, "u1"⟩], 1⟩, [("linux", 0)]⟩ ∧
    NewSearchHandler (fakeSearcher (.ok [⟨1, "u1"⟩]))
        [("limit", "9223372036854775808"), ("phrase", "linux")]
      = ⟨.httpError "bad limit" 400, []⟩ := by
  decide

/-- C18, amended. For the handlers of both `/api/search` and `/api/isearch`: if the value
of `limit` is not empty and `strconv.Atoi` rejects it or it is negative, or if the value of
`phrase` is empty (also when a parameter is missing, which reads as the empty value), the
answer is 400 and the backend is not called; otherwise the backend is called once, with
the phrase and the limit read, which is 0 for an empty value of `limit`. -/
theorem search_handlers_check_request (searcher : Api.Searcher) (query : Query) :
    (((query.Get "limit" ≠ "" ∧
        (Atoi (query.Get "limit") = none ∨ ∃ n, Atoi (query.Get "limit") = some n ∧ n < 0)) ∨
      query.Get "phrase" = "") →
      ((NewSearchHandler searcher query).response.status = 400 ∧
        (NewSearchHandler searcher query).calls = []) ∧
      ((NewIndexSearchHandler searcher query).response.status = 400 ∧
        (NewIndexSearchHandler searcher query).calls = [])) ∧
    (∀ limit,
      ((query.Get "limit" = "" ∧ limit = 0) ∨
        (query.Get "limit" ≠ "" ∧ Atoi (query.Get "limit") = some limit ∧ 0 ≤ limit)) →
      query.Get "phrase" ≠ "" →
      (NewSearchHandler searcher query).calls = [(query.Get "phrase", limit)] ∧
      (NewIndexSearchHandler searcher query).calls = [(query.Get "phrase", limit)]) := by
  refine ⟨?_, ?_⟩
  · intro hbad
    exact ⟨serveSearch_rejects searcher.Search query hbad,
      serveSearch_rejects searcher.SearchIndex query hbad⟩
  · intro limit hlimit hphrase
    have hread := (readLimit_eq_some _ limit).mpr hlimit
    exact ⟨serveSearch_calls searcher.Search query limit hread hphrase,
      serveSearch_calls searcher.SearchIndex query limit hread hphrase⟩

/-- The unit test `TestNewSearchHandler_BadLimitAndNoPhrase`, first request
(`/api/search?limit=abc`). -/
theorem search_handlers_check_request_witness :
    ((NewSearchHandler (fakeSearcher (.ok [])) badLimitQuery).response.status = 400 ∧
      (NewSearchHandler (fakeSearcher (.ok [])) badLimitQuery).calls = []) ∧
    ((NewIndexSearchHandler (fakeSearcher (.ok [])) badLimitQuery).response.status = 400 ∧
      (NewIndexSearchHandler (fakeSearcher (.ok [])) badLimitQuery).calls = []) :=
  (search_handlers_check_request (fakeSearcher (.ok [])) badLimitQuery).1
    (Or.inl ⟨by decide, Or.inl (by decide)⟩)

/-- What `errors.Is` answers on the errors of the model: the variable itself and every
error that wraps it through `%w` is the target; an error made where the failure happens is
not, whatever its text. -/
theorem errorsIs_cases (target : Err) (name text : String)
    (htarget : target = .sentinel name text) :
    errorsIs target target = true ∧
    (∀ pre err, errorsIs (.wrap pre err) target = errorsIs err target) ∧
    (∀ other, errorsIs (.msg other) target = false) ∧
    (∀ name' text', errorsIs (.sentinel name' text') target = true ↔
      Err.sentinel name' text' = target) := by
  subst htarget
  refine ⟨by simp [errorsIs], fun _ _ => rfl, fun _ => rfl, fun _ _ => by simp [errorsIs]⟩

/-- C19. For a request that passes the checks of a search handler (of `/api/search` or of
`/api/isearch`): if the backend returns an error that is `ErrNotFound` (the variable
`core.ErrNotFound` itself, or an error that wraps it) the answer is 404; if it returns any
other error the answer is 500, also when that error has the text of `ErrNotFound` but is
another value; if it returns the comics `c1..cn` the answer is 200 with the reply whose
`total` is `n` and whose `comics` lists the `(id, url)` of `c1..cn` in the same order. -/
theorem search_handlers_map_results (searcher : Api.Searcher) (query : Query) (limit : Int)
    (hlimit : readLimit (query.Get "limit") = some limit)
    (hphrase : query.Get "phrase" ≠ "") :
    ((∀ err, searcher.Search (query.Get "phrase") limit = .error err →
        errorsIs err Api.ErrNotFound = true →
        (NewSearchHandler searcher query).response.status = 404) ∧
      (∀ err, searcher.Search (query.Get "phrase") limit = .error err →
        errorsIs err Api.ErrNotFound = false →
        (NewSearchHandler searcher query).response.status = 500) ∧
      (searcher.Search (query.Get "phrase") limit = .error Api.ErrNotFound →
        (NewSearchHandler searcher query).response.status = 404) ∧
      (∀ text, searcher.Search (query.Get "phrase") limit = .error (.msg text) →
        (NewSearchHandler searcher query).response.status = 500) ∧
      (∀ comics, searcher.Search (query.Get "phrase") limit = .ok comics →
        (NewSearchHandler searcher query).response.status = 200 ∧
        (NewSearchHandler searcher query).response
          = .json { Comics := comics.map (fun c => { ID := c.ID, URL := c.URL }),
                    Total := comics.length })) ∧
    ((∀ err, searcher.SearchIndex (query.Get "phrase") limit = .error err →
        errorsIs err Api.ErrNotFound = true →
        (NewIndexSearchHandler searcher query).response.status = 404) ∧
      (∀ err, searcher.SearchIndex (query.Get "phrase") limit = .error err →
        errorsIs err Api.ErrNotFound = false →
        (NewIndexSearchHandler searcher query).response.status = 500) ∧
      (searcher.SearchIndex (query.Get "phrase") limit = .error Api.ErrNotFound →
        (NewIndexSearchHandler searcher query).response.status = 404) ∧
      (∀ text, searcher.SearchIndex (query.Get "phrase") limit = .error (.msg text) →
        (NewIndexSearchHandler searcher query).response.status = 500) ∧
      (∀ comics, searcher.SearchIndex (query.Get "phrase") limit = .ok comics →
        (NewIndexSearchHandler searcher query).response.status = 200 ∧
        (NewIndexSearchHandler searcher query).response
          = .json { Comics := comics.map (fun c => { ID := c.ID, URL := c.URL }),
                    Total := comics.length })) := by
  have hall : ∀ search : String → Int → Except Err (List Api.Comics),
      (∀ err, search (query.Get "phrase") limit = .error err →
        errorsIs err Api.ErrNotFound = true →
        (serveSearch search query).response.status = 404) ∧
      (∀ err, search (query.Get "phrase") limit = .error err →
        errorsIs err Api.ErrNotFound = false →
        (serveSearch search query).response.status = 500) ∧
      (search (query.Get "phrase") limit = .error Api.ErrNotFound →
        (serveSearch search query).response.status = 404) ∧
      (∀ text, search (query.Get "phrase") limit = .error (.msg text) →
        (serveSearch search query).response.status = 500) ∧
      (∀ comics, search (query.Get "phrase") limit = .ok comics →
        (serveSearch search query).response.status = 200 ∧
        (serveSearch search query).response
          = .json { Comics := comics.map (fun c => { ID := c.ID, URL := c.URL }),
                    Total := comics.length }) := by
    intro search
    obtain ⟨h1, h2, h3⟩ := serveSearch_answers search query limit hlimit hphrase
    refine ⟨?_, ?_, ?_, ?_, ?_⟩
    · intro err he hnf
      rw [h1 err he hnf]
      rfl
    · intro err he hnf
      rw [h2 err he hnf]
      rfl
    · intro he
      rw [h1 _ he (by simp [errorsIs, Api.ErrNotFound])]
      rfl
    · intro text he
      rw [h2 _ he rfl]
      rfl
    · intro comics hc
      rw [h3 comics hc]
      exact ⟨rfl, rfl⟩
  exact ⟨hall searcher.Search, hall searcher.SearchIndex⟩

/-- The unit test `TestNewSearchHandler_NotFoundAndSuccess`, second request
(`/api/search?phrase=linux&limit=1` answered with one comic). -/
theorem search_handlers_map_results_witness :
    (NewSearchHandler (fakeSearcher (.ok [⟨1, "u1"⟩])) linuxQuery).response.status = 200 ∧
    (NewSearchHandler (fakeSearcher (.ok [⟨1, "u1"⟩])) linuxQuery).response
      = .json {
          Comics := [(⟨1, "u1"⟩ : Api.Comics)].map (fun c => { ID := c.ID, URL := c.URL }),
          Total := [(⟨1, "u1"⟩ : Api.Comics)].length } :=
  (search_handlers_map_results (fakeSearcher (.ok [⟨1, "u1"⟩])) linuxQuery 1
    (by decide) (by decide)).1.2.2.2.2 [⟨1, "u1"⟩] rfl

/-- The unit test `TestNewSearchHandler_NotFoundAndSuccess`, first request: the backend
returns `ErrNotFound` and the answer is 404; and a backend that returns a new error with
the same text, `errors.New("not found")`, is answered with 500. -/
theorem search_handlers_not_found_by_identity :
    (NewSearchHandler (fakeSearcher (.error Api.ErrNotFound)) linuxQuery).response
      = .httpError "no comics found" 404 ∧
    (NewSearchHandler (fakeSearcher (.error (.wrap "search" Api.ErrNotFound)))
        linuxQuery).response.status = 404 ∧
    (NewSearchHandler (fakeSearcher (.error (.msg "not found"))) linuxQuery).response
      = .httpError "not found" 500 ∧
    (NewIndexSearchHandler (fakeSearcher (.error (.msg "not found"))) linuxQuery).response
      = .httpError "not found" 500 := by
  decide

/-- C20. The answer of the update handler is 202 if and only if `Update` returned an error
that is `ErrAlreadyExists` (the variable `core.ErrAlreadyExists` itself, or an error that
wraps it), 500 if and only if it returned any other error, and 200 if and only if it
returned no error. An error made where the failure happens is another error whatever its
text, and so is the variable of the same name of another package. -/
theorem update_handler_status (update : Option Err) :
    ((NewUpdateHandler update).status = 202 ↔
      ∃ err, update = some err ∧ errorsIs err Api.ErrAlreadyExists = true) ∧
    ((NewUpdateHandler update).status = 500 ↔
      ∃ err, update = some err ∧ errorsIs err Api.ErrAlreadyExists = false) ∧
    ((NewUpdateHandler update).status = 200 ↔ update = none) ∧
    (update = some Api.ErrAlreadyExists → (NewUpdateHandler update).status = 202) ∧
    (∀ text, update = some (.msg text) → (NewUpdateHandler update).status = 500) ∧
    (update = some Update.ErrAlreadyExists → (NewUpdateHandler update).status = 500) := by
  refine ⟨?_, ?_, ?_, ?_, ?_, ?_⟩
  · cases update with
    | none => simp [NewUpdateHandler, Response.status]
    | some err =>
      cases his : errorsIs err Api.ErrAlreadyExists <;>
        simp [NewUpdateHandler, Response.status, his, StatusAccepted,
          StatusInternalServerError]
  · cases update with
    | none => simp [NewUpdateHandler, Response.status]
    | some err =>
      cases his : errorsIs err Api.ErrAlreadyExists <;>
        simp [NewUpdateHandler, Response.status, his, StatusAccepted,
          StatusInternalServerError]
  · cases update with
    | none => simp [NewUpdateHandler, Response.status]
    | some err =>
      cases his : errorsIs err Api.ErrAlreadyExists <;>
        simp [NewUpdateHandler, Response.status, his, StatusAccepted,
          StatusInternalServerError]
  · intro h
    subst h
    decide
  · intro text h
    subst h
    rfl
  · intro h
    subst h
    decide

/-- The unit test `TestNewUpdateHandler_Errors`: the updater returns `ErrAlreadyExists`
(202), and the updater returns `errors.New("err")` (500); and a new error with the text of
`ErrAlreadyExists` is answered with 500 as well. -/
theorem update_handler_status_witness :
    (NewUpdateHandler (some Api.ErrAlreadyExists)).status = 202 ∧
    (NewUpdateHandler (some (.msg "err"))).status = 500 ∧
    (NewUpdateHandler (some (.msg "already exists"))).status = 500 :=
  ⟨(update_handler_status (some Api.ErrAlreadyExists)).1.mpr
      ⟨Api.ErrAlreadyExists, rfl, by decide⟩,
    (update_handler_status (some (.msg "err"))).2.1.mpr ⟨.msg "err", rfl, by decide⟩,
    (update_handler_status (some (.msg "already exists"))).2.2.2.2.1 "already exists" rfl⟩

/-! ## The bus listener and the bus publisher -/

/-- C23. The handler the search listener subscribes calls `IndexComics` exactly once and
`ClearIndex` not at all when the payload is `"update"`, calls `ClearIndex` exactly once and
`IndexComics` not at all when the payload is `"drop"`, and calls neither and leaves the
initiator alone for any other payload; whatever error a call returns, the handler goes on
with the state the call left and reports nothing. -/
theorem Listener_handle_dispatch {σ : Type} (initiator : Initiator σ) (message : String)
    (s : σ) :
    (message = "update" →
      Listener.handle initiator message s = ((initiator.IndexComics s).1, [.IndexComics])) ∧
    (message = "drop" →
      Listener.handle initiator message s = ((initiator.ClearIndex s).1, [.ClearIndex])) ∧
    (message ≠ "update" → message ≠ "drop" → Listener.handle initiator message s = (s, [])) := by
  refine ⟨?_, ?_, ?_⟩
  · intro h
    simp [Listener.handle, h]
  · intro h
    subst h
    have hne : ¬ "drop" = "update" := by decide
    simp [Listener.handle, hne]
  · intro h1 h2
    simp [Listener.handle, h1, h2]

/-- The unit test `TestListener_Listen_Update`, with an initiator whose rebuild fails. -/
theorem Listener_handle_dispatch_witness :
    Listener.handle (indexInitiator failingAllStore) "update" staleIndex
      = (((indexInitiator failingAllStore).IndexComics staleIndex).1, [.IndexComics]) :=
  (Listener_handle_dispatch (indexInitiator failingAllStore) "update" staleIndex).1 rfl

/-- C24. For every event `Notificator.Publish` hands exactly one message to the connection,
on the subject `"xkcd.db.updated"` and with the bytes of the event as payload (`"update"`
for the updated event, `"drop"` for the dropped event), and it returns an error if and
only if the connection's `Publish` returned one. -/
theorem Notificator_publishes_once (ncPublish : String → String → Option Err)
    (event : String) :
    (Notificator.Publish ncPublish event).1 = [("xkcd.db.updated", event)] ∧
    ((∃ err, (Notificator.Publish ncPublish event).2 = some err) ↔
      ∃ err, ncPublish "xkcd.db.updated" event = some err) ∧
    EventTypeUpdating = "update" ∧ EventTypeDropped = "drop" := by
  have ht : topic = "xkcd.db.updated" := rfl
  cases hp : ncPublish "xkcd.db.updated" event with
  | none => simp [Notificator.Publish, ht, hp, EventTypeUpdating, EventTypeDropped]
  | some err => simp [Notificator.Publish, ht, hp, EventTypeUpdating, EventTypeDropped]

/-- The unit test `TestNotificator_Publish_Success`: the updated event on a connection
that accepts it. -/
theorem Notificator_publishes_once_witness :
    (Notificator.Publish (fun _ _ => none) EventTypeUpdating).1
      = [("xkcd.db.updated", EventTypeUpdating)] ∧
    ((∃ err, (Notificator.Publish (fun _ _ => none) EventTypeUpdating).2 = some err) ↔
      ∃ err, (fun _ _ => none : String → String → Option Err) "xkcd.db.updated"
        EventTypeUpdating = some err) ∧
    EventTypeUpdating = "update" ∧ EventTypeDropped = "drop" :=
  Notificator_publishes_once (fun _ _ => none) EventTypeUpdating

/-! ## The words server -/

theorem utf8ByteSize_phraseOfLength (n : Nat) : (phraseOfLength n).utf8ByteSize = n := by
  have hgo : ∀ m : Nat, String.utf8ByteSize.go (List.replicate m 'a') = m := by
    intro m
    induction m with
    | zero => rfl
    | succ m ih =>
      rw [List.replicate_succ, String.utf8ByteSize.go, ih]
      rfl
  exact hgo n

/-- C25. The words server's `Norm` fails if and only if the length of the phrase exceeds
20000, and then with the code `RESOURCE_EXHAUSTED`; a phrase of length 20000 or less, in
particular of exactly 20000, yields the normalizer's word list without error. -/
theorem server_Norm_length_cap (norm : String → List String) (phrase : String) :
    ((∃ err, server.Norm norm phrase = .error err) ↔ phrase.utf8ByteSize > 20000) ∧
    (∀ err, server.Norm norm phrase = .error err → err.code = ResourceExhausted) ∧
    (phrase.utf8ByteSize ≤ 20000 → server.Norm norm phrase = .ok (norm phrase)) := by
  unfold server.Norm maxPhraseLen
  by_cases h : phrase.utf8ByteSize > 20000
  · simp [h]
  · simp [h]

/-- A phrase of exactly 20000 bytes is accepted. -/
theorem server_Norm_length_cap_witness :
    server.Norm (fun _ => ["a"]) (phraseOfLength 20000) = .ok ["a"] :=
  (server_Norm_length_cap (fun _ => ["a"]) (phraseOfLength 20000)).2.2
    (le_of_eq (utf8ByteSize_phraseOfLength 20000))

/-! ## Ties in `Service.Search` -/

/-- The hit counts along the sorted ids do not depend on the choices of the runtime. -/
theorem sortedIDs_hits_eq (rt₁ rt₂ : GoRuntime) (h₁ : rt₁.Lawful) (h₂ : rt₂.Lawful)
    (scores : GoMap Int Nat) :
    (sortedIDs rt₁ scores).map (fun id => scores.get id 0)
      = (sortedIDs rt₂ scores).map (fun id => scores.get id 0) := by
  have hperm : ((sortedIDs rt₁ scores).map (fun id => scores.get id 0)).Perm
      ((sortedIDs rt₂ scores).map (fun id => scores.get id 0)) :=
    ((sortedIDs_perm rt₁ h₁ scores).trans (sortedIDs_perm rt₂ h₂ scores).symm).map _
  have hs : ∀ rt : GoRuntime, rt.Lawful →
      ((sortedIDs rt scores).map (fun id => scores.get id 0)).Sorted (· ≥ ·) := by
    intro rt hrt
    exact List.pairwise_map.mpr (sortedIDs_sorted rt hrt scores)
  exact List.eq_of_perm_of_sorted hperm (hs rt₁ h₁) (hs rt₂ h₂)

/-- C26, counterexample. The same keyword list and the same store responses, limit 2, hit
counts `1:1, 2:2, 3:1`: when the score map is walked in one order the ids returned are
2, 1; when it is walked in the opposite order they are 2, 3. -/
theorem Search_tie_order_varies :
    stableRuntime.Lawful ∧ reverseRuntime.Lawful ∧
    Search stableRuntime testWords testStore "linux cpu" 2
      = .ret (some [⟨2, "url2", []⟩, ⟨1, "url1", []⟩]) none ∧
    Search reverseRuntime testWords testStore "linux cpu" 2
      = .ret (some [⟨2, "url2", []⟩, ⟨3, "url3", []⟩]) none :=
  ⟨stableRuntime_lawful, reverseRuntime_lawful, by decide, by decide⟩

/-- C26, amended. Ties are broken arbitrarily: two successful `Search` calls with the same
phrase, the same store responses and the same limit fetch id sequences of the same length
whose ids have, position by position, the same hit count; which of the ids with equal hit
counts stands where is left to the order in which the score map is walked and to the
sort. -/
theorem Search_same_hits_per_position (rt₁ rt₂ : GoRuntime) (h₁ : rt₁.Lawful)
    (h₂ : rt₂.Lawful) (words : Words) (db : Storager) (phrase : String) (limit : Int)
    (result₁ result₂ : List Comics)
    (hrun₁ : Search rt₁ words db phrase limit = .ret (some result₁) none)
    (hrun₂ : Search rt₂ words db phrase limit = .ret (some result₂) none) :
    ∃ keywords ids₁ ids₂, words.Norm phrase = .ok keywords ∧
      List.Forall₂ (fun id comics => db.Get id = .ok comics) ids₁ result₁ ∧
      List.Forall₂ (fun id comics => db.Get id = .ok comics) ids₂ result₂ ∧
      ids₁.map (hitCount db keywords) = ids₂.map (hitCount db keywords) ∧
      result₁.length = result₂.length := by
  obtain ⟨keywords, scores, sorted₁, hn, hc, hl₁, hf₁⟩ :=
    Search_ok rt₁ words db phrase limit result₁ hrun₁
  obtain ⟨keywords', scores', sorted₂, hn', hc', hl₂, hf₂⟩ :=
    Search_ok rt₂ words db phrase limit result₂ hrun₂
  rw [hn] at hn'
  simp only [Except.ok.injEq] at hn'
  subst hn'
  rw [hc] at hc'
  simp only [Except.ok.injEq] at hc'
  subst hc'
  obtain ⟨hget, _, _, _⟩ := collectScores_ok db keywords [] scores hc
  have hhit : (fun id => scores.get id 0) = hitCount db keywords := by
    funext id
    rw [hget id]
    simp [hitCount, GoMap.get]
  have hnonneg : 0 ≤ limit := by
    by_contra hneg
    rw [limitResults_of_neg _ _ (by omega)] at hl₁
    exact absurd hl₁ (by simp)
  rw [limitResults_of_nonneg _ _ hnonneg] at hl₁ hl₂
  simp only [Option.some.injEq] at hl₁ hl₂
  obtain ⟨fetched₁, hres₁, hall₁⟩ := fetchComics_ok db sorted₁ [] result₁ hf₁
  obtain ⟨fetched₂, hres₂, hall₂⟩ := fetchComics_ok db sorted₂ [] result₂ hf₂
  have hr₁ : result₁ = fetched₁ := by simpa using hres₁
  have hr₂ : result₂ = fetched₂ := by simpa using hres₂
  subst hr₁ hr₂
  have hmap : sorted₁.map (hitCount db keywords) = sorted₂.map (hitCount db keywords) := by
    rw [← hl₁, ← hl₂, List.map_take, List.map_take, ← hhit,
      sortedIDs_hits_eq rt₁ rt₂ h₁ h₂ scores]
  refine ⟨keywords, sorted₁, sorted₂, hn, hall₁, hall₂, hmap, ?_⟩
  have hlen := congrArg List.length hmap
  simp only [List.length_map] at hlen
  rw [← hall₁.length_eq, ← hall₂.length_eq, hlen]

/-- The two calls of the counterexample: the second ids, 1 and 3, both have one hit. -/
theorem Search_same_hits_per_position_witness :
    ∃ keywords ids₁ ids₂, testWords.Norm "linux cpu" = .ok keywords ∧
      List.Forall₂ (fun id comics => testStore.Get id = .ok comics) ids₁
        [⟨2, "url2", []⟩, ⟨1, "url1", []⟩] ∧
      List.Forall₂ (fun id comics => testStore.Get id = .ok comics) ids₂
        [⟨2, "url2", []⟩, ⟨3, "url3", []⟩] ∧
      ids₁.map (hitCount testStore keywords) = ids₂.map (hitCount testStore keywords) ∧
      [(⟨2, "url2", []⟩ : Comics), ⟨1, "url1", []⟩].length
        = [(⟨2, "url2", []⟩ : Comics), ⟨3, "url3", []⟩].length :=
  Search_same_hits_per_position stableRuntime reverseRuntime stableRuntime_lawful
    reverseRuntime_lawful testWords testStore "linux cpu" 2 _ _ (by decide) (by decide)

/-! ## Negative limits, a cap of zero, and the stop signal -/

/-- C28, the code at the failing input. With a comic that matches and the limit `-1`,
`GetIndexedComics` panics in `make([]int, 0, limit)` before it asks the store, and so does
`IndexSearch`, which hands its limit on unchecked. -/
theorem GetIndexedComics_negative_limit_panics :
    GetIndexedComics stableRuntime testIndex (DB.store testTable) ["linux"] (-1)
      = ⟨.panic, []⟩ ∧
    IndexSearch stableRuntime testWords testIndex (DB.store testTable) "linux cpu" (-1)
      = ⟨.panic, []⟩ := by
  decide

theorem runConcurrency_zero (events : List ConcurrencyEvent) (s : ConcurrencyState)
    (h : runConcurrency 0 .init events = some s) : s = .init := by
  induction events with
  | nil =>
    simp only [runConcurrency, Option.some.injEq] at h
    exact h.symm
  | cons event rest ih =>
    cases event with
    | arrive => exact ih h
    | nextReturns => exact absurd h (by simp [runConcurrency, Concurrency, ConcurrencyState.init])
    | receive => exact absurd h (by simp [runConcurrency, Concurrency, ConcurrencyState.init])

/-- C29. The handler returned by `Concurrency(next, 0)` has one reachable state, with an
empty channel and no request inside `next`; in it every arriving request is answered 503
and does not enter `next`, and no request can return from `next` or receive from the
channel. (The channel has no buffer, so a send succeeds only when a receiver waits, and
the only receive of the handler comes after a send that succeeded.) -/
theorem Concurrency_zero_admits_nobody (events : List ConcurrencyEvent)
    (s : ConcurrencyState) (hreach : runConcurrency 0 .init events = some s) :
    s = .init ∧ s.inNext = 0 ∧
    Concurrency 0 s .arrive = some (s, some (.httpError "Service Unavailable" 503)) ∧
    Concurrency 0 s .nextReturns = none ∧ Concurrency 0 s .receive = none := by
  have hs := runConcurrency_zero events s hreach
  subst hs
  exact ⟨rfl, rfl, rfl, rfl, rfl⟩

theorem Concurrency_zero_admits_nobody_witness :
    ConcurrencyState.init = .init ∧ ConcurrencyState.init.inNext = 0 ∧
    Concurrency 0 .init .arrive
      = some (.init, some (.httpError "Service Unavailable" 503)) ∧
    Concurrency 0 .init .nextReturns = none ∧ Concurrency 0 .init .receive = none :=
  Concurrency_zero_admits_nobody [.arrive, .arrive] .init (by decide)

/-- Whatever cases the loop of `Start` takes, `Start` has not returned. -/
theorem Start_never_returns (db : Storager) (indexedComics : GoMap String (List String))
    (cases : List SelectCase) : (Start db indexedComics cases).returned = false := by
  have hloop : ∀ s : StartState, s.returned = false →
      (cases.foldl (fun s ready => if s.returned then s else startIteration db s ready)
        s).returned = false := by
    induction cases with
    | nil =>
      intro s hret
      exact hret
    | cons ready rest ih =>
      intro s hret
      rw [List.foldl_cons]
      apply ih
      cases ready <;> simp [startIteration, hret]
  exact hloop _ rfl

/-- C30, the code at the failing input. After `Close` the loop takes the stop case; `Start`
has not returned after it, and when the timer fires next the index is rebuilt once
more. -/
theorem Start_goes_on_after_stop :
    Start (DB.store buildTable) staleIndex [.stop]
      = ⟨[("5", ["linux"]), ("1", ["a", "b"]), ("2", ["b", "c"])], 0, false⟩ ∧
    Start (DB.store buildTable) staleIndex [.stop, .tick]
      = ⟨[("5", ["linux"]), ("1", ["a", "b"]), ("2", ["b", "c"])], 1, false⟩ := by
  decide

/-! ## Login and token verification -/

theorem GoMap.lookup_single (user password name : String) :
    GoMap.lookup [(user, password)] name = if user = name then some password else none := by
  simp [GoMap.lookup]

/-- What `New` builds from an environment that has both admin variables. -/
theorem AAA_New_ok (lookupEnv : String → Option String) (tokenTTL : Int)
    (user password : String) (huser : lookupEnv "ADMIN_USER" = some user)
    (hpassword : lookupEnv "ADMIN_PASSWORD" = some password) :
    AAA.New lookupEnv tokenTTL = .ok { users := [(user, password)], tokenTTL := tokenTTL } := by
  simp [AAA.New, huser, hpassword]

/-- A `Verify` that returns no error has parsed a token whose subject is the admin
subject. -/
theorem Verify_ok_subject (a : AAA) (now : Int) (tokenString : TokenString)
    (h : a.Verify now tokenString = none) : tokenString.subject = some adminRole := by
  unfold AAA.Verify at h
  split at h
  · exact absurd h (by simp)
  · rename_i token hparse
    split at h
    · exact absurd h (by simp)
    · split at h
      · exact absurd h (by simp)
      · rename_i subject hsub
        split at h
        · exact absurd h (by simp)
        · rename_i hadmin
          have hs : subject = adminRole := by
            by_contra hne
            exact hadmin hne
          cases tokenString with
          | malformed text => simp [jwtParse] at hparse
          | jwt method claims signature =>
            unfold jwtParse at hparse
            simp only at hparse
            split at hparse
            · exact absurd hparse (by simp)
            · split at hparse
              · exact absurd hparse (by simp)
              · split at hparse
                · exact absurd hparse (by simp)
                · split at hparse
                  · exact absurd hparse (by simp)
                  · simp only [Except.ok.injEq] at hparse
                    subst hparse
                    simp only [TokenString.subject]
                    rw [← hs]
                    exact hsub

/-- C21. For an `AAA` built from an environment with the admin user and password and any
token TTL (in particular a positive one): the token `Login` returns for the admin
credentials is accepted by `Verify` at every instant before the expiry written into the
token, which is the instant of the login plus the TTL, truncated to the second; and
`Verify` returns an error for every token string whose subject claim is not the admin
subject. -/
theorem Verify_accepts_login_token (lookupEnv : String → Option String) (tokenTTL : Int)
    (user password : String) (a : AAA) (loginTime verifyTime : Int)
    (huser : lookupEnv "ADMIN_USER" = some user)
    (hpassword : lookupEnv "ADMIN_PASSWORD" = some password)
    (hnew : AAA.New lookupEnv tokenTTL = .ok a)
    (hfresh : verifyTime < NewNumericDate (loginTime + tokenTTL)) :
    (a.Login loginTime user password).2 = none ∧
    a.Verify verifyTime (a.Login loginTime user password).1 = none ∧
    (∀ (tokenString : TokenString) (now : Int),
      tokenString.subject ≠ some adminRole → a.Verify now tokenString ≠ none) := by
  rw [AAA_New_ok lookupEnv tokenTTL user password huser hpassword] at hnew
  simp only [Except.ok.injEq] at hnew
  subst hnew
  have hlogin : AAA.Login { users := [(user, password)], tokenTTL := tokenTTL }
      loginTime user password
      = (TokenString.jwt .HS256
          ⟨some adminRole, some (NewNumericDate loginTime),
            some (NewNumericDate (loginTime + tokenTTL)), none⟩
          (.mac secretKey), none) := by
    simp [AAA.Login, GoMap.lookup, SignedString]
  refine ⟨by rw [hlogin], ?_, ?_⟩
  · rw [hlogin]
    have hnot : ¬ NewNumericDate (loginTime + tokenTTL) ≤ verifyTime := by omega
    simp [AAA.Verify, jwtParse, verifyKeyFunc, SigningMethod.isHMAC, hnot]
  · intro tokenString now hsub hok
    exact hsub (Verify_ok_subject _ now tokenString hok)

/-- The unit test `TestAAA_Login_SuccessAndVerify`: login at 1.5 s, verification at 2 s,
TTL one minute. -/
theorem Verify_accepts_login_token_witness :
    (testAAA.Login 1500000000 "admin" "password").2 = none ∧
    testAAA.Verify 2000000000 (testAAA.Login 1500000000 "admin" "password").1 = none ∧
    (∀ (tokenString : TokenString) (now : Int),
      tokenString.subject ≠ some adminRole → testAAA.Verify now tokenString ≠ none) :=
  Verify_accepts_login_token testEnv 60000000000 "admin" "password" testAAA
    1500000000 2000000000 rfl rfl rfl (by decide)

/-- C22. For an `AAA` built from an environment with the admin user and password: `Login`
returns a token and no error if and only if the name is the admin user and the password
is the admin password; in every other case it returns the empty string and an error. -/
theorem Login_iff_admin_credentials (lookupEnv : String → Option String) (tokenTTL : Int)
    (user password : String) (a : AAA) (now : Int) (name pass : String)
    (huser : lookupEnv "ADMIN_USER" = some user)
    (hpassword : lookupEnv "ADMIN_PASSWORD" = some password)
    (hnew : AAA.New lookupEnv tokenTTL = .ok a) :
    ((a.Login now name pass).2 = none ↔ name = user ∧ pass = password) ∧
    ((a.Login now name pass).2 = none →
      ∃ claims, (a.Login now name pass).1 = .jwt .HS256 claims (.mac secretKey)) ∧
    ((a.Login now name pass).2 ≠ none → (a.Login now name pass).1 = .malformed "") := by
  rw [AAA_New_ok lookupEnv tokenTTL user password huser hpassword] at hnew
  simp only [Except.ok.injEq] at hnew
  subst hnew
  unfold AAA.Login
  rw [GoMap.lookup_single]
  by_cases hn : user = name
  · subst hn
    by_cases hp : password = pass
    · subst hp
      simp [SignedString]
    · have hp' : ¬ pass = password := fun h => hp h.symm
      simp [hp, hp']
  · have hn' : ¬ name = user := fun h => hn h.symm
    simp [hn, hn']

/-- The unit test `TestAAA_Login_InvalidCredentials`, first call: a wrong password. -/
theorem Login_iff_admin_credentials_witness :
    ((testAAA.Login 0 "admin" "wrong").2 = none ↔ "admin" = "admin" ∧ "wrong" = "password") ∧
    ((testAAA.Login 0 "admin" "wrong").2 = none →
      ∃ claims, (testAAA.Login 0 "admin" "wrong").1 = .jwt .HS256 claims (.mac secretKey)) ∧
    ((testAAA.Login 0 "admin" "wrong").2 ≠ none →
      (testAAA.Login 0 "admin" "wrong").1 = .malformed "") :=
  Login_iff_admin_credentials testEnv 60000000000 "admin" "password" testAAA 0 "admin" "wrong"
    rfl rfl rfl

/-! ## `StringArray`: writing and reading back -/

theorem dropWhile_append_of_all {α : Type} (cut : α → Bool) (pre l : List α)
    (h : ∀ c ∈ pre, cut c = true) : (pre ++ l).dropWhile cut = l.dropWhile cut := by
  induction pre with
  | nil => rfl
  | cons c rest ih =>
    have hc := h c (List.mem_cons_self _ _)
    simp only [List.cons_append, List.dropWhile_cons, hc, if_true]
    exact ih (fun d hd => h d (List.mem_cons_of_mem _ hd))

theorem dropWhile_eq_nil_of_all {α : Type} (cut : α → Bool) (l : List α)
    (h : ∀ c ∈ l, cut c = true) : l.dropWhile cut = [] := by
  have := dropWhile_append_of_all cut l [] h
  simpa using this

/-- Trimming removes a wrapping of cut characters around a core that begins and ends with
a character that is not cut. -/
theorem trimChars_wrapped (cut : Char → Bool) (pre post core tail init : List Char)
    (first last : Char) (hcore : core = first :: tail) (hrev : core = init ++ [last])
    (hfirst : cut first = false) (hlast : cut last = false)
    (hpre : ∀ c ∈ pre, cut c = true) (hpost : ∀ c ∈ post, cut c = true) :
    trimChars cut (pre ++ core ++ post) = core := by
  unfold trimChars
  rw [List.append_assoc, dropWhile_append_of_all cut pre _ hpre]
  have h1 : (core ++ post).dropWhile cut = core ++ post := by
    rw [hcore]
    simp [List.dropWhile_cons, hfirst]
  rw [h1, List.reverse_append,
    dropWhile_append_of_all cut post.reverse _ (fun c hc => hpost c (List.mem_reverse.mp hc))]
  have h2 : core.reverse.dropWhile cut = core.reverse := by
    rw [hrev]
    simp [List.dropWhile_cons, hlast]
  rw [h2, List.reverse_reverse]

theorem trimChars_of_all (cut : Char → Bool) (l : List Char) (h : ∀ c ∈ l, cut c = true) :
    trimChars cut l = [] := by
  unfold trimChars
  rw [dropWhile_eq_nil_of_all cut l h]
  rfl

theorem writeElements_data (a : List String) (i : Nat) (b : String) (hi : 0 < i) :
    (writeElements a i b).toList
      = b.toList ++ (a.map (fun s => ',' :: quoted s)).flatten := by
  induction a generalizing i b with
  | nil => simp [writeElements]
  | cons s rest ih =>
    unfold writeElements
    rw [ih (i + 1) _ (by omega)]
    simp [hi, quoted, String.toList]

theorem intercalate_comma (x : List Char) (xs : List (List Char)) :
    [','].intercalate (x :: xs) = x ++ (xs.map (fun y => ',' :: y)).flatten := by
  induction xs generalizing x with
  | nil => simp [List.intercalate]
  | cons y rest ih =>
    have h := ih y
    simp only [List.intercalate, List.intersperse, List.flatten, List.map_cons] at h ⊢
    rw [h]
    simp

/-- What `Value` writes for a non-empty array: the quoted elements, separated by commas,
between braces. -/
theorem Value_data (s : String) (rest : List String) :
    (StringArray.Value (s :: rest)).toList
      = '{' :: ([','].intercalate ((s :: rest).map quoted) ++ ['}']) := by
  have hw : (writeElements (s :: rest) 0 "\x7b").toList
      = '{' :: (quoted s ++ (rest.map (fun t => ',' :: quoted t)).flatten) := by
    unfold writeElements
    rw [writeElements_data rest 1 _ (by omega)]
    simp [quoted, String.toList]
  have hv : StringArray.Value (s :: rest) = writeElements (s :: rest) 0 "\x7b" ++ "\x7d" := by
    simp [StringArray.Value]
  rw [hv]
  have happ : (writeElements (s :: rest) 0 "\x7b" ++ "\x7d").toList
      = (writeElements (s :: rest) 0 "\x7b").toList ++ ['}'] := by
    simp [String.toList]
  rw [happ, hw, List.map_cons, intercalate_comma, List.map_map]
  simp [Function.comp_def]

theorem intercalate_comma_cons (x y : List Char) (l : List (List Char)) :
    [','].intercalate (x :: y :: l) = x ++ ',' :: [','].intercalate (y :: l) := by
  simp [List.intercalate, List.intersperse]

/-- The quoted elements of a non-empty array, joined by commas, begin and end with a
double quote. -/
theorem joined_shape (s : String) (rest : List String) :
    ∃ tail init, [','].intercalate ((s :: rest).map quoted) = '"' :: tail ∧
      [','].intercalate ((s :: rest).map quoted) = init ++ ['"'] := by
  induction rest generalizing s with
  | nil =>
    refine ⟨s.toList ++ ['"'], '"' :: s.toList, ?_, ?_⟩
    · simp [List.intercalate, quoted]
    · simp [List.intercalate, quoted]
  | cons t rest ih =>
    obtain ⟨tail, init, _, hinit⟩ := ih t
    simp only [List.map_cons] at hinit ⊢
    rw [intercalate_comma_cons, hinit]
    refine ⟨s.toList ++ '"' :: ',' :: (init ++ ['"']), quoted s ++ ',' :: init, ?_, ?_⟩
    · simp [quoted]
    · simp

/-- Trimming the double quotes of a quoted element gives the element back when it holds no
double quote itself. -/
theorem trim_quoted (s : String) (h : '"' ∉ s.toList) :
    stringsTrim (String.mk (quoted s)) "\"" = s := by
  have hcut : ∀ c : Char, decide (c ∈ "\"".toList) = decide (c = '"') := by
    intro c
    have : "\"".toList = ['"'] := rfl
    simp [this]
  have hmk : String.mk s.toList = s := rfl
  unfold stringsTrim
  have hq : (String.mk (quoted s)).toList = ['"'] ++ s.toList ++ ['"'] := by
    simp [quoted, String.toList]
  rw [hq]
  rcases List.eq_nil_or_concat s.toList with hnil | ⟨init, last, hconcat⟩
  · rw [hnil, trimChars_of_all]
    · rw [← hnil]
      exact hmk
    · intro c hc
      rw [hcut]
      simpa using hc
  · rw [List.concat_eq_append] at hconcat
    cases hl : s.toList with
    | nil =>
      rw [hl] at hconcat
      exact absurd hconcat (by simp)
    | cons first tail =>
      have hfirst : first ≠ '"' := by
        rintro rfl
        exact h (by rw [hl]; exact List.mem_cons_self _ _)
      have hlast : last ≠ '"' := by
        rintro rfl
        exact h (by rw [hconcat]; simp)
      rw [← hl, trimChars_wrapped _ ['"'] ['"'] s.toList tail init first last hl hconcat
        (by rw [hcut]; simpa using hfirst) (by rw [hcut]; simpa using hlast)
        (by intro c hc; rw [hcut]; simpa using hc) (by intro c hc; rw [hcut]; simpa using hc)]
      exact hmk

/-- C27. For every list `a` of strings none of which holds a comma or a double quote,
`Scan` applied to the string `Value(a)` sets the array to `a` again (to the empty list for
an empty `a`) and returns no error; `Value` of the empty list is `{}` and `Value` of
`[a, b, c]` is `{"a","b","c"}`. -/
theorem StringArray_Scan_Value (a before : List String)
    (h : ∀ s ∈ a, ',' ∉ s.toList ∧ '"' ∉ s.toList) :
    StringArray.Scan before (.text (StringArray.Value a)) = (a, none) ∧
    StringArray.Value [] = "\x7b\x7d" ∧
    StringArray.Value ["a", "b", "c"] = "\x7b\"a\",\"b\",\"c\"\x7d" := by
  refine ⟨?_, by decide, by decide⟩
  cases a with
  | nil =>
    have hv : StringArray.Value [] = "\x7b\x7d" := by decide
    have ht : stringsTrim "\x7b\x7d" "\x7b\x7d" = "" := by decide
    simp [StringArray.Scan, hv, ht]
  | cons s rest =>
    obtain ⟨tail, init, hhead, hlast⟩ := joined_shape s rest
    have hcutB : ∀ c : Char, decide (c ∈ "\x7b\x7d".toList) = decide (c = '{' ∨ c = '}') := by
      intro c
      have : "\x7b\x7d".toList = ['{', '}'] := rfl
      simp [this]
    have htrim : stringsTrim (StringArray.Value (s :: rest)) "\x7b\x7d"
        = String.mk ([','].intercalate ((s :: rest).map quoted)) := by
      unfold stringsTrim
      rw [Value_data]
      have hform : '{' :: ([','].intercalate ((s :: rest).map quoted) ++ ['}'])
          = ['{'] ++ [','].intercalate ((s :: rest).map quoted) ++ ['}'] := by simp
      rw [hform, trimChars_wrapped _ ['{'] ['}'] _ tail init '"' '"' hhead hlast
        (by rw [hcutB]; decide) (by rw [hcutB]; decide)
        (by intro c hc; rw [hcutB]; simp at hc; simp [hc])
        (by intro c hc; rw [hcutB]; simp at hc; simp [hc])]
    have hne : String.mk ([','].intercalate ((s :: rest).map quoted)) ≠ "" := by
      rw [hhead]
      intro hempty
      have := congrArg String.toList hempty
      simp [String.toList] at this
    have hsplit : stringsSplit (String.mk ([','].intercalate ((s :: rest).map quoted))) ','
        = ((s :: rest).map quoted).map String.mk := by
      unfold stringsSplit
      have hdata : (String.mk ([','].intercalate ((s :: rest).map quoted))).toList
          = [','].intercalate ((s :: rest).map quoted) := rfl
      rw [hdata, List.splitOn_intercalate _ ',' _ (by simp)]
      intro l hl
      obtain ⟨t, ht, rfl⟩ := List.mem_map.mp hl
      have hc := (h t ht).1
      simp only [quoted, List.mem_cons, List.mem_append, List.mem_singleton, not_or]
      exact ⟨by decide, hc, by decide, by simp⟩
    have hparts : (((s :: rest).map quoted).map String.mk).map
        (fun part => stringsTrim part "\"") = s :: rest := by
      rw [List.map_map, List.map_map]
      conv_rhs => rw [← List.map_id (s :: rest)]
      apply List.map_congr_left
      intro t ht
      exact trim_quoted t (h t ht).2
    simp only [StringArray.Scan, htrim, hne, if_false, hsplit, hparts]

/-- The unit tests `TestStringArray_Value_WithValues` and `TestStringArray_Scan_WithValues`. -/
theorem StringArray_Scan_Value_witness :
    StringArray.Scan [] (.text (StringArray.Value ["a", "b", "c"])) = (["a", "b", "c"], none) ∧
    StringArray.Value [] = "\x7b\x7d" ∧
    StringArray.Value ["a", "b", "c"] = "\x7b\"a\",\"b\",\"c\"\x7d" :=
  StringArray_Scan_Value ["a", "b", "c"] [] (by decide)

end XkcdSearch
